import Mathlib

/-!
# xt_ssl: the TLS SNI matcher of `src/xt_ssl.c`

A shallow embedding of `get_ssl_hostname`, `ssl_mt` and `ssl_mt_check`.

Modelling conventions.

* The TCP payload is seen the way the C code sees it: a pointer `data` into
  memory and a length `data_len = tail - data`.  `sk_buff.data i` is the octet
  stored at `data + i`; indices at or above `data_len` are the memory that
  follows the payload.  The C code indexes `data` without consulting
  `data_len` in several places, so the model must be able to say what such a
  read returns: it returns whatever the memory holds there.
* `char` is unsigned (the kernel is built with `-funsigned-char`): a read
  yields a value in `0..255`.
* `u_int16_t` values are reduced modulo `2^16`, `u_int` values modulo `2^32`.
* The `while` loop is run with a step budget; `none` means that the budget
  was exhausted (it never is, see `get_ssl_hostname_returns`), `some r` that
  the C function returned `r`.
* `kmalloc` is assumed to succeed.
-/

namespace XtSsl

/-- The errno value `EPROTO` of `asm/errno.h`. -/
def EPROTO : Nat := 71

/-- The errno value `EINVAL` of `asm/errno.h`. -/
def EINVAL : Nat := 22

/-- The TCP payload of a socket buffer as `get_ssl_hostname` sees it after
lines 32-37: the memory at `data` and the length `data_len`. -/
structure sk_buff where
  /-- `data i` is the octet stored at address `data + i`. -/
  data : Nat → Nat
  /-- `data_len = tail - data`, the number of payload octets. -/
  data_len : Nat

/-- Reading `data[i]` as an unsigned char. -/
def byte (skb : sk_buff) (i : Nat) : Nat := skb.data i % 256

/-- The idiom `memcpy(&x, &data[i], 2); x = ntohs(x);`: the big-endian 16-bit
number stored at `data[i], data[i+1]`. -/
def ntohs_at (skb : sk_buff) (i : Nat) : Nat := byte skb i * 256 + byte skb (i + 1)

/-- Truncation to `u_int16_t`. -/
def u16 (n : Nat) : Nat := n % 65536

/-- Truncation to `u_int` (32 bits). -/
def u32 (n : Nat) : Nat := n % 4294967296

/-- What `get_ssl_hostname` returns: `ok dest` stands for return value 0 with
`*dest` pointing to the freshly allocated buffer `dest`; `error c` for the
return value `c` (always `EPROTO`). -/
abbrev Outcome := Except Nat (List Nat)

deriving instance DecidableEq for Except

/-- The octets `strncpy(dest, &data[src], n)` writes to `dest[0..n)`: the
source octets up to the first NUL, then NUL padding up to `n`. -/
def strncpy (skb : sk_buff) (src n : Nat) : List Nat :=
  let s := ((List.range n).map (fun i => byte skb (src + i))).takeWhile (fun b => b != 0)
  s ++ List.replicate (n - s.length) 0

/-- The C string held by a buffer: the octets before the first NUL. -/
def cstr (buf : List Nat) : List Nat := buf.takeWhile (fun b => b != 0)

/-- Lines 44-49: `ssl_header_len`, the limit used by the bounds checks. -/
def ssl_header_len (skb : sk_buff) : Nat :=
  let ssl_header_len := u16 (byte skb 3 * 256 + byte skb 4 + 5)
  if ssl_header_len > skb.data_len then u16 skb.data_len else ssl_header_len

/-- Lines 121-168, the `while` loop: `fuel` bounds the number of iterations,
`extension_offset` is the loop variable. -/
def scan_extensions (skb : sk_buff) (offset extensions_len : Nat) :
    Nat → Nat → Option Outcome
  | fuel, extension_offset =>
    if extension_offset < extensions_len then
      match fuel with
      | 0 => none
      | fuel + 1 =>
        let extension_id := ntohs_at skb (u32 (offset + extension_offset))
        let extension_offset := u32 (extension_offset + 2)
        let extension_len := ntohs_at skb (u32 (offset + extension_offset))
        let extension_offset := u32 (extension_offset + 2)
        if extension_id = 0 then
          let extension_offset := u32 (extension_offset + 2)
          let extension_offset := u32 (extension_offset + 1)
          let name_length := ntohs_at skb (u32 (offset + extension_offset))
          let extension_offset := u32 (extension_offset + 2)
          some (.ok (strncpy skb (u32 (offset + extension_offset)) name_length ++ [0]))
        else
          scan_extensions skb offset extensions_len fuel (u32 (extension_offset + extension_len))
    else
      some (.error EPROTO)

/-- Lines 24-173. -/
def get_ssl_hostname (skb : sk_buff) : Option Outcome :=
  if byte skb 0 ≠ 0x16 then some (.error EPROTO) else
  let ssl_header_len := ssl_header_len skb
  let handshake_protocol := byte skb 5
  if ssl_header_len > 4 then
    if handshake_protocol = 0x01 then
      let base_offset := 43
      if base_offset + 2 > skb.data_len then some (.error EPROTO) else
      let session_id_len := byte skb base_offset
      if u32 (session_id_len + base_offset + 2) > ssl_header_len then some (.error EPROTO) else
      let cipher_len := ntohs_at skb (u32 (base_offset + session_id_len + 1))
      let offset := u32 (base_offset + session_id_len + cipher_len + 2)
      if offset > ssl_header_len then some (.error EPROTO) else
      let compression_len := byte skb (u32 (offset + 1))
      let offset := u32 (offset + compression_len + 2)
      if offset > ssl_header_len then some (.error EPROTO) else
      let extensions_len := ntohs_at skb offset
      if u32 (extensions_len + offset) > ssl_header_len then some (.error EPROTO) else
      scan_extensions skb offset extensions_len extensions_len 2
    else some (.error EPROTO)
  else some (.error EPROTO)

/-- The rule data `struct xt_ssl_info` of `xt_ssl.h`: the `invert` bit mask and
the pattern `ssl_host` (the C string, without its terminator). -/
structure xt_ssl_info where
  invert : Nat
  ssl_host : List Nat

/-- Modelled from the spec: the header `xt_ssl.h` is not among the sources; it
defines the bit `XT_SSL_OP_HOST` of `xt_ssl_info.invert` that the spec calls
the invert flag. The bit is taken to be `0x01`. -/
def XT_SSL_OP_HOST : Nat := 1

/-- Line 180: `bool invert = (info->invert & XT_SSL_OP_HOST);`. -/
def invert_flag (info : xt_ssl_info) : Bool := (info.invert &&& XT_SSL_OP_HOST) != 0

/-- Lines 175-198. `glob_match` is the kernel function of `linux/glob.h`,
taken as a parameter: it receives the pattern and the parsed host as C
strings. -/
def ssl_mt (glob_match : List Nat → List Nat → Bool) (skb : sk_buff) (info : xt_ssl_info) :
    Option Bool :=
  let invert := invert_flag info
  match get_ssl_hostname skb with
  | none => none
  | some (.error _) => some false
  | some (.ok parsed_host) =>
    let m := glob_match info.ssl_host (cstr parsed_host)
    let m := if invert then !m else m
    some m

/-- The protocol family `NFPROTO_IPV4` of `linux/netfilter.h`. -/
def NFPROTO_IPV4 : Nat := 2

/-- The protocol family `NFPROTO_IPV6` of `linux/netfilter.h`. -/
def NFPROTO_IPV6 : Nat := 10

/-- The protocol number `IPPROTO_TCP` of `linux/in.h`. -/
def IPPROTO_TCP : Nat := 6

/-- The `struct xt_mtchk_param` of `x_tables.h` as `ssl_mt_check` reads it: the
family, and the `proto` field that `entryinfo` yields when it is read as a
`struct ipt_ip` and as a `struct ip6t_ip6`. -/
structure xt_mtchk_param where
  family : Nat
  ipt_ip_proto : Nat
  ip6t_ip6_proto : Nat

/-- Lines 200-219. The result is the C return value, `0` or `-EINVAL`. -/
def ssl_mt_check (par : xt_mtchk_param) : Int :=
  if par.family = NFPROTO_IPV4 then
    let proto := u16 par.ipt_ip_proto
    if proto ≠ IPPROTO_TCP then -(EINVAL : Int) else 0
  else if par.family = NFPROTO_IPV6 then
    let proto := u16 par.ip6t_ip6_proto
    if proto ≠ IPPROTO_TCP then -(EINVAL : Int) else 0
  else
    -(EINVAL : Int)

/-- Modelled from the spec: `glob_match` of `linux/glob.h` is kernel code outside
the sources. Section 4.6: `*` matches any run of zero or more characters, `?`
exactly one character, a bracketed class `[...]` one character of the listed
set; everything else matches itself; the match is case-sensitive and anchored
at both ends. `glob_class p` splits what follows a `[` into the set and the
rest of the pattern (`none` when no `]` closes the class; the `[` is then an
ordinary character). -/
def glob_class : List Nat → Option (List Nat × List Nat)
  | [] => none
  | c :: p =>
    if c = 93 then some ([], p)
    else match glob_class p with
      | some (set, rest) => some (c :: set, rest)
      | none => none

/-- Modelled from the spec: the matcher of section 4.6, run with a step budget
(each step consumes a pattern or a subject character). -/
def glob_match_steps : Nat → List Nat → List Nat → Bool
  | 0, _, _ => false
  | fuel + 1, pat, str =>
    match pat, str with
    | [], [] => true
    | [], _ :: _ => false
    | d :: p, [] => d = 42 && glob_match_steps fuel p []
    | d :: p, c :: s =>
      if d = 42 then
        glob_match_steps fuel p (c :: s) || glob_match_steps fuel (d :: p) s
      else if d = 63 then
        glob_match_steps fuel p s
      else if d = 91 then
        match glob_class p with
        | some (set, rest) => set.contains c && glob_match_steps fuel rest s
        | none => c = 91 && glob_match_steps fuel p s
      else
        c = d && glob_match_steps fuel p s

/-- Modelled from the spec: `glob_match(pat, str)` of `linux/glob.h`, absent
from the sources, with the semantics of section 4.6. -/
def glob_match (pat str : List Nat) : Bool :=
  glob_match_steps (pat.length + str.length + 1) pat str

/-- A payload given by its octets, followed in memory by `after`. -/
def sk_buff.of_bytes (bytes : List Nat) (after : Nat → Nat) : sk_buff where
  data := fun i => if i < bytes.length then bytes.getD i 0 else after (i - bytes.length)
  data_len := bytes.length

/-- The octets of an ASCII string. -/
def ascii (s : String) : List Nat := s.toList.map Char.toNat

/-- Scenario 1 of the spec, up to the extensions: record header (content type,
version, the two octets `rec_hi rec_lo` of the record length), handshake
header, version, 32 random octets, empty session id, one cipher suite, one
compression method. -/
def hello_prefix (content_type rec_hi rec_lo handshake_type : Nat) : List Nat :=
  [content_type, 0x03, 0x03, rec_hi, rec_lo, handshake_type, 0x00, 0x00, 0x3b, 0x03, 0x03] ++
  List.replicate 32 0xaa ++ [0x00, 0x00, 0x02, 0x13, 0x01, 0x01, 0x00]

/-- The server_name extension for `test.io`: type 0, length 12, list length 10,
name type 0, name length 7, name. -/
def sni_test_io : List Nat :=
  [0x00, 0x00, 0x00, 0x0c, 0x00, 0x0a, 0x00, 0x00, 0x07] ++ ascii "test.io"

/-- Scenario 1 of the spec: the minimal ClientHello for `test.io`, 68 octets. -/
def hello_test_io : List Nat :=
  hello_prefix 0x16 0x00 0x3f 0x01 ++ [0x00, 0x10] ++ sni_test_io

/-- The same record with content type `0x17` (scenario 2 of the spec). -/
def appdata_test_io : List Nat :=
  hello_prefix 0x17 0x00 0x3f 0x01 ++ [0x00, 0x10] ++ sni_test_io

/-- The same record with handshake type `0x02`, ServerHello (scenario 5). -/
def server_hello_test_io : List Nat :=
  hello_prefix 0x16 0x00 0x3f 0x02 ++ [0x00, 0x10] ++ sni_test_io

/-- One entry of the extension list of a ClientHello: its type and payload. -/
structure Extension where
  extension_id : Nat
  payload : List Nat

/-- The two octets of a big-endian 16-bit field holding `n`. -/
def be16 (n : Nat) : List Nat := [n / 256 % 256, n % 256]

/-- The wire form of an extension: type, payload length, payload. -/
def Extension.encode (e : Extension) : List Nat :=
  be16 e.extension_id ++ be16 e.payload.length ++ e.payload

/-- The wire form of an extension list: the entries back to back. -/
def encode_extensions : List Extension → List Nat
  | [] => []
  | e :: es => e.encode ++ encode_extensions es

/-- An entry whose type and payload length fit their 16-bit fields. -/
def Extension.fits (e : Extension) : Prop :=
  e.extension_id < 65536 ∧ e.payload.length < 65536

instance (e : Extension) : Decidable e.fits := by
  unfold Extension.fits
  infer_instance

/-- A server_name extension (type 0) naming `host`: server-name-list length,
name type, name length, the name, and whatever else the payload holds. -/
def server_name (list_len name_type : Nat) (host more : List Nat) : Extension where
  extension_id := 0
  payload := be16 list_len ++ [name_type] ++ be16 host.length ++ host ++ more

/-- The memory at `data[base], data[base+1], ...` holds the octets `bytes`. -/
def stored (skb : sk_buff) (base : Nat) (bytes : List Nat) : Prop :=
  ∀ i, i < bytes.length → byte skb (base + i) = bytes.getD i 0

instance (skb : sk_buff) (base : Nat) (bytes : List Nat) : Decidable (stored skb base bytes) := by
  unfold stored
  infer_instance

/-- The buffer holds one complete ClientHello record laid out as TLS
prescribes: content type `0x16`, a record length that accounts for the whole
buffer and respects the TLS bound, handshake type `0x01`, session-id length
`S` at offset 43, cipher-suite length `C`, compression length `M`, and an
extensions length followed by the octets `exts`, which end the buffer. -/
structure client_hello (skb : sk_buff) (S C M : Nat) (exts : List Nat) : Prop where
  content_type : byte skb 0 = 0x16
  record_length : byte skb 3 * 256 + byte skb 4 + 5 = skb.data_len
  /-- TLS caps the length of a record at `2^14` (RFC 8446, section 5.1). -/
  record_bound : byte skb 3 * 256 + byte skb 4 ≤ 16384
  handshake_type : byte skb 5 = 0x01
  session_id_length : byte skb 43 = S
  cipher_length : ntohs_at skb (44 + S) = C
  compression_length : byte skb (46 + S + C) = M
  extensions_length : ntohs_at skb (47 + S + C + M) = exts.length
  extensions : stored skb (49 + S + C + M) exts
  complete : 49 + S + C + M + exts.length = skb.data_len

/-- The value of `offset` when the loop of `get_ssl_hostname` starts: the
index of the extensions-length field, `47 + S + C + M` for the session-id
length `S = data[43]`, the cipher-suite length `C` read at `44 + S` and the
compression length `M = data[46 + S + C]`. -/
def extensions_offset (skb : sk_buff) : Nat :=
  let S := byte skb 43
  let C := ntohs_at skb (44 + S)
  let M := byte skb (46 + S + C)
  47 + S + C + M

/-- The conjunction of the tests that `get_ssl_hostname` performs before it
enters the loop (lines 40, 51, 53, 57, 70, 85, 99, 113), negated so that each
holds when the function goes on. -/
def header_checks (skb : sk_buff) : Prop :=
  byte skb 0 = 0x16 ∧ 4 < ssl_header_len skb ∧ byte skb 5 = 0x01 ∧ 45 ≤ skb.data_len ∧
  byte skb 43 + 45 ≤ ssl_header_len skb ∧
  45 + byte skb 43 + ntohs_at skb (44 + byte skb 43) ≤ ssl_header_len skb ∧
  extensions_offset skb ≤ ssl_header_len skb ∧
  ntohs_at skb (extensions_offset skb) + extensions_offset skb ≤ ssl_header_len skb

instance (skb : sk_buff) : Decidable (header_checks skb) := by
  unfold header_checks
  infer_instance

/-- A record shaped like `hello_test_io` around the extension octets `exts`,
with the record length and the extensions length that `exts` calls for. -/
def record_of (content_type handshake_type : Nat) (exts : List Nat) : List Nat :=
  hello_prefix content_type ((47 + exts.length) / 256 % 256) ((47 + exts.length) % 256)
    handshake_type ++ be16 exts.length ++ exts

/-- A ClientHello with four extensions, two of them server_name: supported
groups, server_name `a.io`, ec point formats, server_name `b.io`. -/
def hello_two_names : List Nat :=
  record_of 0x16 0x01 (encode_extensions
    [⟨10, [0x00, 0x02, 0x00, 0x17]⟩, server_name 7 0 (ascii "a.io") [],
     ⟨11, [0x01, 0x00]⟩, server_name 7 0 (ascii "b.io") []])

/-- A ClientHello with two extensions, neither of them server_name. -/
def hello_no_name : List Nat :=
  record_of 0x16 0x01 (encode_extensions [⟨10, [0x00, 0x02, 0x00, 0x17]⟩, ⟨11, [0x01, 0x00]⟩])

/-- A ClientHello with an empty extension list. -/
def hello_no_extensions : List Nat := record_of 0x16 0x01 []

/-- The `test.io` ClientHello whose name-length field says 16 instead of 7. -/
def hello_long_name : List Nat :=
  hello_prefix 0x16 0x00 0x3f 0x01 ++ [0x00, 0x10] ++
    [0x00, 0x00, 0x00, 0x0c, 0x00, 0x0a, 0x00, 0x00, 0x10] ++ ascii "test.io"

/-- The `test.io` ClientHello whose record-length field says `0xffff`, as in
the first segment of a record that continues in later segments. -/
def hello_long_record : List Nat :=
  hello_prefix 0x16 0xff 0xff 0x01 ++ [0x00, 0x10] ++ sni_test_io

/-- The indices that `strncpy(dest, &data[src], n)` reads: up to and including
the first NUL, at most `n` of them. -/
def strncpy_reads (skb : sk_buff) : Nat → Nat → List Nat
  | _, 0 => []
  | src, n + 1 => src :: (if byte skb src = 0 then [] else strncpy_reads skb (src + 1) n)

/-- The indices of `data` that the loop of lines 121-168 reads, in order; the
control flow is that of `scan_extensions`. -/
def scan_extensions_reads (skb : sk_buff) (offset extensions_len : Nat) :
    Nat → Nat → List Nat
  | fuel, extension_offset =>
    if extension_offset < extensions_len then
      match fuel with
      | 0 => []
      | fuel + 1 =>
        let id_at := u32 (offset + extension_offset)
        let extension_id := ntohs_at skb id_at
        let extension_offset := u32 (extension_offset + 2)
        let len_at := u32 (offset + extension_offset)
        let extension_len := ntohs_at skb len_at
        let extension_offset := u32 (extension_offset + 2)
        [id_at, id_at + 1, len_at, len_at + 1] ++
        if extension_id = 0 then
          let extension_offset := u32 (extension_offset + 2)
          let type_at := u32 (offset + extension_offset)
          let extension_offset := u32 (extension_offset + 1)
          let name_at := u32 (offset + extension_offset)
          let name_length := ntohs_at skb name_at
          let extension_offset := u32 (extension_offset + 2)
          [type_at, name_at, name_at + 1] ++
            strncpy_reads skb (u32 (offset + extension_offset)) name_length
        else
          scan_extensions_reads skb offset extensions_len fuel
            (u32 (extension_offset + extension_len))
    else
      []

/-- The indices of `data` that `get_ssl_hostname` reads, in order; the control
flow is that of `get_ssl_hostname`. -/
def get_ssl_hostname_reads (skb : sk_buff) : List Nat :=
  0 :: if byte skb 0 ≠ 0x16 then [] else
  let ssl_header_len := ssl_header_len skb
  let handshake_protocol := byte skb 5
  3 :: 4 :: 5 ::
  if ssl_header_len > 4 then
    if handshake_protocol = 0x01 then
      let base_offset := 43
      if base_offset + 2 > skb.data_len then [] else
      let session_id_len := byte skb base_offset
      base_offset ::
      if u32 (session_id_len + base_offset + 2) > ssl_header_len then [] else
      let cipher_at := u32 (base_offset + session_id_len + 1)
      let cipher_len := ntohs_at skb cipher_at
      let offset := u32 (base_offset + session_id_len + cipher_len + 2)
      cipher_at :: (cipher_at + 1) ::
      if offset > ssl_header_len then [] else
      let compression_len := byte skb (u32 (offset + 1))
      u32 (offset + 1) ::
      let offset := u32 (offset + compression_len + 2)
      if offset > ssl_header_len then [] else
      let extensions_len := ntohs_at skb offset
      offset :: (offset + 1) ::
      if u32 (extensions_len + offset) > ssl_header_len then [] else
      scan_extensions_reads skb offset extensions_len extensions_len 2
    else []
  else []

/-- The `n` octets stored at `data[src], ..., data[src + n - 1]`. -/
def name_bytes (skb : sk_buff) (src n : Nat) : List Nat :=
  (List.range n).map (fun i => byte skb (src + i))

/-- The octets of the payload among the `n` octets from `data[src]` on: those
at indices below `data_len`. -/
def packet_name_bytes (skb : sk_buff) (src n : Nat) : List Nat :=
  name_bytes skb src (min n (skb.data_len - src))

/-- The index in `data` of the entry of type 0 at which the loop of lines
121-168 stops, if it stops at one; the control flow is that of
`scan_extensions`. -/
def scan_extensions_find (skb : sk_buff) (offset extensions_len : Nat) :
    Nat → Nat → Option Nat
  | fuel, extension_offset =>
    if extension_offset < extensions_len then
      match fuel with
      | 0 => none
      | fuel + 1 =>
        let id_at := u32 (offset + extension_offset)
        let extension_id := ntohs_at skb id_at
        let extension_offset := u32 (extension_offset + 2)
        let extension_len := ntohs_at skb (u32 (offset + extension_offset))
        let extension_offset := u32 (extension_offset + 2)
        if extension_id = 0 then some id_at
        else
          scan_extensions_find skb offset extensions_len fuel
            (u32 (extension_offset + extension_len))
    else
      none

/-- The index in `data` of the server_name entry from which `get_ssl_hostname`
takes the name: the header tests pass and the loop stops at that entry. -/
def server_name_index (skb : sk_buff) : Option Nat :=
  if header_checks skb then
    scan_extensions_find skb (extensions_offset skb) (ntohs_at skb (extensions_offset skb))
      (ntohs_at skb (extensions_offset skb)) 2
  else none

/-- The number of times the body of the loop of lines 121-168 is entered; the
control flow is that of `scan_extensions`. -/
def scan_extensions_iterations (skb : sk_buff) (offset extensions_len : Nat) :
    Nat → Nat → Nat
  | fuel, extension_offset =>
    if extension_offset < extensions_len then
      match fuel with
      | 0 => 0
      | fuel + 1 =>
        let extension_id := ntohs_at skb (u32 (offset + extension_offset))
        let extension_offset := u32 (extension_offset + 2)
        let extension_len := ntohs_at skb (u32 (offset + extension_offset))
        let extension_offset := u32 (extension_offset + 2)
        if extension_id = 0 then 1
        else
          1 + scan_extensions_iterations skb offset extensions_len fuel
            (u32 (extension_offset + extension_len))
    else
      0

/-- A ClientHello whose server name `te\0t.io` holds a NUL. -/
def hello_nul_name : List Nat :=
  record_of 0x16 0x01 (server_name 10 0 [0x74, 0x65, 0x00, 0x74, 0x2e, 0x69, 0x6f] []).encode

/-- The complete 68-octet `test.io` ClientHello whose record-length field says
61 instead of 63: the declared record ends two octets before the extension
block does. -/
def hello_short_record : List Nat :=
  hello_prefix 0x16 0x00 0x3d 0x01 ++ [0x00, 0x10] ++ sni_test_io

/-- The same record with a record-length field of 62: the declared record
ends one octet before the extension block does. -/
def hello_short_record_by_one : List Nat :=
  hello_prefix 0x16 0x00 0x3e 0x01 ++ [0x00, 0x10] ++ sni_test_io

/-- A ClientHello whose only extension is a server_name entry for `host`. -/
def hello_for (host : String) : List Nat :=
  record_of 0x16 0x01 (server_name (3 + host.length) 0 (ascii host) []).encode

/-- The `test.io` ClientHello with other octets at indices 1-2 (record
version) and 6-42 (handshake length, protocol version, random). -/
def hello_test_io_other : List Nat :=
  [0x16, 0x03, 0x01, 0x00, 0x3f, 0x01, 0xff, 0xff, 0xff, 0x02, 0x00] ++
  List.replicate 32 0xbb ++ [0x00, 0x00, 0x02, 0x13, 0x01, 0x01, 0x00] ++ [0x00, 0x10] ++ sni_test_io

/-- The `test.io` ClientHello with other octets in the length field of the
server_name entry (`0xffff`), in its list length (`0`) and in its name type
(`0x7f`). -/
def hello_test_io_odd : List Nat :=
  hello_prefix 0x16 0x00 0x3f 0x01 ++ [0x00, 0x10] ++
    [0x00, 0x00, 0xff, 0xff, 0x00, 0x00, 0x7f, 0x00, 0x07] ++ ascii "test.io"

/-! ## Basic facts -/

theorem byte_lt (skb : sk_buff) (i : Nat) : byte skb i < 256 :=
  Nat.mod_lt _ (by decide)

theorem ntohs_at_lt (skb : sk_buff) (i : Nat) : ntohs_at skb i < 65536 := by
  have h1 := byte_lt skb i
  have h2 := byte_lt skb (i + 1)
  unfold ntohs_at
  omega

theorem u32_eq {n : Nat} (h : n < 4294967296) : u32 n = n :=
  Nat.mod_eq_of_lt h

theorem u16_eq {n : Nat} (h : n < 65536) : u16 n = n :=
  Nat.mod_eq_of_lt h

/-- The limit of lines 44-49 is the smaller of the wrapped sum and `data_len`. -/
theorem ssl_header_len_eq_min (skb : sk_buff) :
    ssl_header_len skb = min (u16 (byte skb 3 * 256 + byte skb 4 + 5)) skb.data_len := by
  unfold ssl_header_len u16
  simp only []
  split
  · rename_i h
    have h3 : (byte skb 3 * 256 + byte skb 4 + 5) % 65536 < 65536 := Nat.mod_lt _ (by decide)
    rw [Nat.mod_eq_of_lt (by omega), Nat.min_eq_right (by omega)]
  · rename_i h
    rw [Nat.min_eq_left (by omega)]

theorem ssl_header_len_le (skb : sk_buff) : ssl_header_len skb ≤ skb.data_len := by
  rw [ssl_header_len_eq_min]
  exact Nat.min_le_right _ _

theorem ssl_header_len_lt (skb : sk_buff) : ssl_header_len skb < 65536 := by
  rw [ssl_header_len_eq_min]
  have h3 : u16 (byte skb 3 * 256 + byte skb 4 + 5) < 65536 := Nat.mod_lt _ (by decide)
  have := Nat.min_le_left (u16 (byte skb 3 * 256 + byte skb 4 + 5)) skb.data_len
  omega

/-- What `ssl_mt` makes of each outcome of `get_ssl_hostname`. -/
theorem ssl_mt_of_ok (glob : List Nat → List Nat → Bool) (skb : sk_buff) (dest : List Nat)
    (info : xt_ssl_info) (h : get_ssl_hostname skb = some (.ok dest)) :
    ssl_mt glob skb info = some (xor (glob info.ssl_host (cstr dest)) (invert_flag info)) := by
  unfold ssl_mt
  rw [h]
  cases hi : invert_flag info <;> simp

theorem ssl_mt_of_error (glob : List Nat → List Nat → Bool) (skb : sk_buff) (c : Nat)
    (info : xt_ssl_info) (h : get_ssl_hostname skb = some (.error c)) :
    ssl_mt glob skb info = some false := by
  unfold ssl_mt
  rw [h]

/-! ## Memory contents -/

theorem stored_append {skb : sk_buff} {base : Nat} {a b : List Nat} :
    stored skb base (a ++ b) ↔ stored skb base a ∧ stored skb (base + a.length) b := by
  unfold stored
  constructor
  · intro h
    refine ⟨fun i hi => ?_, fun i hi => ?_⟩
    · have := h i (by rw [List.length_append]; omega)
      rw [this, List.getD_append _ _ _ _ hi]
    · have := h (a.length + i) (by rw [List.length_append]; omega)
      rw [← Nat.add_assoc] at this
      rw [this, List.getD_append_right _ _ _ _ (by omega)]
      simp
  · rintro ⟨ha, hb⟩ i hi
    rw [List.length_append] at hi
    by_cases hlt : i < a.length
    · rw [ha i hlt, List.getD_append _ _ _ _ hlt]
    · have := hb (i - a.length) (by omega)
      rw [List.getD_append_right _ _ _ _ (by omega), ← this]
      congr 1
      omega

theorem stored_cons {skb : sk_buff} {base : Nat} {x : Nat} {l : List Nat} :
    stored skb base (x :: l) ↔ byte skb base = x ∧ stored skb (base + 1) l := by
  have := @stored_append skb base [x] l
  simp only [List.singleton_append, List.length_singleton] at this
  rw [this]
  constructor
  · rintro ⟨h1, h2⟩
    exact ⟨by simpa using h1 0 (by simp), h2⟩
  · rintro ⟨h1, h2⟩
    refine ⟨fun i hi => ?_, h2⟩
    have : i = 0 := by simpa using hi
    subst this
    simpa using h1

theorem ntohs_at_of_stored {skb : sk_buff} {base n : Nat} (h : stored skb base (be16 n))
    (hn : n < 65536) : ntohs_at skb base = n := by
  unfold be16 at h
  rw [stored_cons, stored_cons] at h
  unfold ntohs_at
  rw [h.1, h.2.1]
  omega

theorem length_be16 (n : Nat) : (be16 n).length = 2 := rfl

theorem length_encode (e : Extension) : e.encode.length = 4 + e.payload.length := by
  unfold Extension.encode
  simp only [List.length_append, length_be16]

theorem length_encode_extensions_ge (es : List Extension) :
    4 * es.length ≤ (encode_extensions es).length := by
  induction es with
  | nil => simp [encode_extensions]
  | cons e es ih =>
    simp only [encode_extensions, List.length_append, length_encode, List.length_cons]
    omega

theorem strncpy_of_stored {skb : sk_buff} {src : Nat} {host : List Nat}
    (h : stored skb src host) (hz : ∀ b ∈ host, b ≠ 0) :
    strncpy skb src host.length = host := by
  have hmap : (List.range host.length).map (fun i => byte skb (src + i)) = host := by
    apply List.ext_getElem
    · simp
    · intro i h1 h2
      simp only [List.getElem_map, List.getElem_range]
      rw [h i h2, List.getD_eq_getElem _ _ h2]
  unfold strncpy
  simp only [hmap]
  have htw : host.takeWhile (fun b => b != 0) = host := by
    rw [List.takeWhile_eq_self_iff]
    intro b hb
    simpa using hz b hb
  rw [htw]
  simp

theorem cstr_append_nul {host : List Nat} (hz : ∀ b ∈ host, b ≠ 0) :
    cstr (host ++ [0]) = host := by
  unfold cstr
  induction host with
  | nil => simp
  | cons x l ih =>
    have hx : x ≠ 0 := hz x (List.mem_cons_self _ _)
    have := ih (fun b hb => hz b (List.mem_cons_of_mem _ hb))
    simp [List.takeWhile_cons, hx, this]

/-! ## The header tests and the loop -/

/-- `get_ssl_hostname` is its header tests followed by the loop. -/
theorem get_ssl_hostname_eq (skb : sk_buff) :
    get_ssl_hostname skb =
      if header_checks skb then
        scan_extensions skb (extensions_offset skb) (ntohs_at skb (extensions_offset skb))
          (ntohs_at skb (extensions_offset skb)) 2
      else some (.error EPROTO) := by
  have hS := byte_lt skb 43
  have hC := ntohs_at_lt skb (44 + byte skb 43)
  have hM := byte_lt skb (46 + byte skb 43 + ntohs_at skb (44 + byte skb 43))
  have hE := ntohs_at_lt skb (extensions_offset skb)
  have e1 : u32 (byte skb 43 + 43 + 2) = byte skb 43 + 45 := by rw [u32_eq (by omega)]
  have e2 : u32 (43 + byte skb 43 + 1) = 44 + byte skb 43 := by rw [u32_eq (by omega)]; omega
  have e3 : u32 (43 + byte skb 43 + ntohs_at skb (44 + byte skb 43) + 2)
      = 45 + byte skb 43 + ntohs_at skb (44 + byte skb 43) := by
    rw [u32_eq (by omega)]; omega
  have e4 : u32 (45 + byte skb 43 + ntohs_at skb (44 + byte skb 43) + 1)
      = 46 + byte skb 43 + ntohs_at skb (44 + byte skb 43) := by
    rw [u32_eq (by omega)]; omega
  have e5 : u32 (45 + byte skb 43 + ntohs_at skb (44 + byte skb 43)
        + byte skb (46 + byte skb 43 + ntohs_at skb (44 + byte skb 43)) + 2)
      = extensions_offset skb := by
    rw [u32_eq (by omega)]; unfold extensions_offset; simp only []; omega
  have e6 : u32 (ntohs_at skb (extensions_offset skb) + extensions_offset skb)
      = ntohs_at skb (extensions_offset skb) + extensions_offset skb := by
    have : extensions_offset skb < 70000 := by unfold extensions_offset; simp only []; omega
    rw [u32_eq (by omega)]
  unfold get_ssl_hostname header_checks
  simp only [e1, e2, e3, e4, e5, e6]
  split_ifs <;> first | rfl | (exfalso; omega)

/-- The loop stops with `EPROTO` once the cursor has reached `extensions_len`. -/
theorem scan_extensions_exit (skb : sk_buff) (offset E fuel eo : Nat) (h : E ≤ eo) :
    scan_extensions skb offset E fuel eo = some (.error EPROTO) := by
  unfold scan_extensions
  rw [if_neg (by omega)]

/-- One iteration over an entry whose type is not 0: the cursor moves past
the 4-octet header and the payload. -/
theorem scan_extensions_step (skb : sk_buff) (offset E fuel eo : Nat)
    (ho : offset < 65536) (hE : E < 65536) (hlt : eo < E)
    (hid : ntohs_at skb (offset + eo) ≠ 0) :
    scan_extensions skb offset E (fuel + 1) eo =
      scan_extensions skb offset E fuel (eo + 4 + ntohs_at skb (offset + eo + 2)) := by
  have hl := ntohs_at_lt skb (offset + eo + 2)
  have e1 : u32 (offset + eo) = offset + eo := u32_eq (by omega)
  have e2 : u32 (eo + 2) = eo + 2 := u32_eq (by omega)
  have e3 : u32 (offset + (eo + 2)) = offset + eo + 2 := by rw [u32_eq (by omega)]; omega
  have e4 : u32 (eo + 2 + 2) = eo + 4 := by rw [u32_eq (by omega)]
  have e5 : u32 (eo + 4 + ntohs_at skb (offset + eo + 2))
      = eo + 4 + ntohs_at skb (offset + eo + 2) := u32_eq (by omega)
  rw [scan_extensions]
  simp only [e1, e2, e3, e4, e5, if_pos hlt, if_neg hid]

/-- The iteration that meets an entry of type 0 returns the name copied from
nine octets after the start of the entry, sized by the field two octets
before the name. -/
theorem scan_extensions_server_name (skb : sk_buff) (offset E fuel eo : Nat)
    (ho : offset < 65536) (hE : E < 65536) (hlt : eo < E)
    (hid : ntohs_at skb (offset + eo) = 0) :
    scan_extensions skb offset E (fuel + 1) eo =
      some (.ok (strncpy skb (offset + eo + 9) (ntohs_at skb (offset + eo + 7)) ++ [0])) := by
  have e1 : u32 (offset + eo) = offset + eo := u32_eq (by omega)
  have e2 : u32 (eo + 2) = eo + 2 := u32_eq (by omega)
  have e3 : u32 (offset + (eo + 2)) = offset + eo + 2 := by rw [u32_eq (by omega)]; omega
  have e4 : u32 (eo + 2 + 2) = eo + 4 := by rw [u32_eq (by omega)]
  have e5 : u32 (eo + 4 + 2) = eo + 6 := by rw [u32_eq (by omega)]
  have e6 : u32 (eo + 6 + 1) = eo + 7 := by rw [u32_eq (by omega)]
  have e7 : u32 (offset + (eo + 7)) = offset + eo + 7 := by rw [u32_eq (by omega)]; omega
  have e8 : u32 (eo + 7 + 2) = eo + 9 := by rw [u32_eq (by omega)]
  have e9 : u32 (offset + (eo + 9)) = offset + eo + 9 := by rw [u32_eq (by omega)]; omega
  rw [scan_extensions]
  simp only [e1, e2, e3, e4, e5, e6, e7, e8, e9, if_pos hlt, hid, if_true]

/-- The loop walks over a run of well-formed entries none of which has type 0,
one iteration per entry. The run starts `p` octets into the extension block
(cursor `2 + p`) and lies inside the block. -/
theorem scan_extensions_skip (skb : sk_buff) (offset E : Nat)
    (ho : offset < 65536) (hE : E < 65536) :
    ∀ (pre : List Extension) (fuel p : Nat),
      stored skb (offset + 2 + p) (encode_extensions pre) →
      (∀ e ∈ pre, e.extension_id ≠ 0 ∧ e.fits) →
      p + (encode_extensions pre).length ≤ E →
      scan_extensions skb offset E (fuel + pre.length) (2 + p) =
        scan_extensions skb offset E fuel (2 + p + (encode_extensions pre).length) := by
  intro pre
  induction pre with
  | nil => intro fuel p _ _ _; simp [encode_extensions]
  | cons e es ih =>
    intro fuel p hst hgood hin
    obtain ⟨hne, hfit1, hfit2⟩ := hgood e (List.mem_cons_self _ _)
    have hlen : (encode_extensions (e :: es)).length
        = 4 + e.payload.length + (encode_extensions es).length := by
      simp only [encode_extensions, List.length_append, length_encode]
    rw [hlen] at hin
    simp only [encode_extensions, Extension.encode, List.append_assoc] at hst
    rw [stored_append, stored_append, stored_append] at hst
    obtain ⟨hsid, hslen, _, hrest⟩ := hst
    simp only [length_be16] at hslen hrest
    have hid : ntohs_at skb (offset + (2 + p)) = e.extension_id := by
      rw [← Nat.add_assoc]; exact ntohs_at_of_stored hsid hfit1
    have hpl : ntohs_at skb (offset + (2 + p) + 2) = e.payload.length := by
      rw [← Nat.add_assoc]; exact ntohs_at_of_stored hslen hfit2
    have hstep := scan_extensions_step skb offset E (fuel + es.length) (2 + p) ho hE (by omega)
      (by rw [hid]; exact hne)
    rw [hpl] at hstep
    have hih := ih fuel (p + 4 + e.payload.length)
      (by
        have : offset + 2 + p + 2 + 2 + e.payload.length = offset + 2 + (p + 4 + e.payload.length) := by
          omega
        rw [← this]; exact hrest)
      (fun x hx => hgood x (List.mem_cons_of_mem _ hx)) (by omega)
    have hf : fuel + (e :: es).length = fuel + es.length + 1 := by simp; omega
    rw [hf, hstep, hlen]
    have h1 : 2 + p + 4 + e.payload.length = 2 + (p + 4 + e.payload.length) := by omega
    have h2 : 2 + p + (4 + e.payload.length + (encode_extensions es).length)
        = 2 + (p + 4 + e.payload.length) + (encode_extensions es).length := by omega
    rw [h1, h2]
    exact hih

/-! ## Well-formed records -/

theorem encode_extensions_append (a b : List Extension) :
    encode_extensions (a ++ b) = encode_extensions a ++ encode_extensions b := by
  induction a with
  | nil => rfl
  | cons e es ih =>
    show e.encode ++ encode_extensions (es ++ b) = (e.encode ++ encode_extensions es) ++ _
    rw [ih, List.append_assoc]

/-- A complete ClientHello record of at most 65535 octets passes every header
test, and the loop starts at its extension block. -/
theorem header_checks_of_layout {skb : sk_buff} {S C M E : Nat}
    (h0 : byte skb 0 = 0x16) (hrec : byte skb 3 * 256 + byte skb 4 + 5 = skb.data_len)
    (h5 : byte skb 5 = 0x01) (hS : byte skb 43 = S) (hC : ntohs_at skb (44 + S) = C)
    (hM : byte skb (46 + S + C) = M) (hE : ntohs_at skb (47 + S + C + M) = E)
    (hend : 49 + S + C + M + E = skb.data_len) (hsize : skb.data_len ≤ 65535) :
    header_checks skb ∧ extensions_offset skb = 47 + S + C + M ∧
      ntohs_at skb (extensions_offset skb) = E := by
  have hoff : extensions_offset skb = 47 + S + C + M := by
    unfold extensions_offset
    simp only [hS, hC, hM]
  have hlim : ssl_header_len skb = skb.data_len := by
    rw [ssl_header_len_eq_min, hrec, u16_eq (by omega), Nat.min_self]
  refine ⟨?_, hoff, by rw [hoff, hE]⟩
  unfold header_checks
  rw [hoff, hlim, hS, hC, hE]
  refine ⟨h0, ?_, h5, ?_, ?_, ?_, ?_, ?_⟩ <;> omega

/-- The general form of the extraction: when the header tests pass and the
extension block starts with well-formed entries `pre` of types other than 0
followed by an entry of type 0, the function returns the name of that entry,
sized by its own name-length field; the entry's length field, the list length
and the name type are not consulted, nor is anything after the name. -/
theorem get_ssl_hostname_of_server_name (skb : sk_buff) (pre : List Extension)
    (ext_len list_len name_type : Nat) (host : List Nat)
    (hchk : header_checks skb)
    (hst : stored skb (extensions_offset skb + 2)
      (encode_extensions pre ++ (be16 0 ++ (be16 ext_len ++ (be16 list_len ++
        ([name_type] ++ (be16 host.length ++ host)))))))
    (hpre : ∀ e ∈ pre, e.extension_id ≠ 0 ∧ e.fits)
    (hin : (encode_extensions pre).length + 2 < ntohs_at skb (extensions_offset skb))
    (hlen : host.length < 65536) (hhost : ∀ b ∈ host, b ≠ 0) :
    get_ssl_hostname skb = some (.ok (host ++ [0])) := by
  have hE := ntohs_at_lt skb (extensions_offset skb)
  have ho : extensions_offset skb < 65536 := by
    have := ssl_header_len_lt skb
    have := hchk.2.2.2.2.2.2.1
    omega
  rw [get_ssl_hostname_eq, if_pos hchk]
  rw [stored_append] at hst
  obtain ⟨hstpre, hsni⟩ := hst
  have hcnt := length_encode_extensions_ge pre
  obtain ⟨fuel, hfuel⟩ : ∃ fuel, ntohs_at skb (extensions_offset skb) = fuel + 1 + pre.length :=
    ⟨ntohs_at skb (extensions_offset skb) - 1 - pre.length, by omega⟩
  have hskip := scan_extensions_skip skb (extensions_offset skb)
    (ntohs_at skb (extensions_offset skb)) ho hE pre (fuel + 1) 0
    (by simpa using hstpre) hpre (by omega)
  rw [← hfuel] at hskip
  rw [hskip]
  rw [stored_append, stored_append, stored_append, stored_append, stored_append] at hsni
  simp only [length_be16, List.length_singleton] at hsni
  obtain ⟨hid, _, _, _, hnl, hname⟩ := hsni
  have hbase : extensions_offset skb + (2 + 0 + (encode_extensions pre).length)
      = extensions_offset skb + 2 + (encode_extensions pre).length := by omega
  have hid0 : ntohs_at skb (extensions_offset skb + (2 + 0 + (encode_extensions pre).length))
      = 0 := by
    rw [hbase]; exact ntohs_at_of_stored hid (by decide)
  rw [scan_extensions_server_name skb _ _ fuel _ ho hE (by omega) hid0, hbase]
  have hn : ntohs_at skb (extensions_offset skb + 2 + (encode_extensions pre).length + 7)
      = host.length := by
    have := ntohs_at_of_stored hnl hlen
    rw [← this]
  have hsrc : extensions_offset skb + 2 + (encode_extensions pre).length + 9
      = extensions_offset skb + 2 + (encode_extensions pre).length + 2 + 2 + 2 + 1 + 2 := by omega
  rw [hn, hsrc, strncpy_of_stored hname hhost]

/-- The extraction on a complete record of at most 65535 octets, stated on
the octets up to the end of the first server name only: whatever follows the
name inside the `E` octets of the extension block plays no part. -/
theorem server_name_of_layout (skb : sk_buff) (S C M E : Nat) (pre : List Extension)
    (ext_len list_len name_type : Nat) (host : List Nat)
    (h0 : byte skb 0 = 0x16) (hrec : byte skb 3 * 256 + byte skb 4 + 5 = skb.data_len)
    (h5 : byte skb 5 = 0x01) (hS : byte skb 43 = S) (hC : ntohs_at skb (44 + S) = C)
    (hM : byte skb (46 + S + C) = M) (hE : ntohs_at skb (47 + S + C + M) = E)
    (hend : 49 + S + C + M + E = skb.data_len) (hsize : skb.data_len ≤ 65535)
    (hst : stored skb (49 + S + C + M)
      (encode_extensions pre ++ (be16 0 ++ (be16 ext_len ++ (be16 list_len ++
        ([name_type] ++ (be16 host.length ++ host)))))))
    (hfit : (encode_extensions pre).length + 9 + host.length ≤ E)
    (hpre : ∀ e ∈ pre, e.extension_id ≠ 0 ∧ e.fits) (hhost : ∀ b ∈ host, b ≠ 0) :
    get_ssl_hostname skb = some (.ok (host ++ [0])) := by
  obtain ⟨hchk, hoff, hlen⟩ := header_checks_of_layout h0 hrec h5 hS hC hM hE hend hsize
  refine get_ssl_hostname_of_server_name skb pre ext_len list_len name_type host hchk ?_ hpre
    (by rw [hlen]; omega) (by omega) hhost
  have h2 : 47 + S + C + M + 2 = 49 + S + C + M := by omega
  rw [hoff, h2]
  exact hst

/-- The octets of a server_name entry up to the end of the name, and the
length of the whole entry. -/
theorem encode_server_name (list_len name_type : Nat) (host more : List Nat) :
    (server_name list_len name_type host more).encode =
      (be16 0 ++ (be16 (5 + host.length + more.length) ++ (be16 list_len ++
        ([name_type] ++ (be16 host.length ++ host))))) ++ more := by
  simp only [Extension.encode, server_name, List.length_append, length_be16,
    List.length_singleton, List.append_assoc]
  congr 3
  omega

theorem ssl_mt_of_cstring (glob : List Nat → List Nat → Bool) (skb : sk_buff) (host : List Nat)
    (info : xt_ssl_info) (h : get_ssl_hostname skb = some (.ok (host ++ [0])))
    (hhost : ∀ b ∈ host, b ≠ 0) :
    ssl_mt glob skb info = some (xor (glob info.ssl_host host) (invert_flag info)) := by
  rw [ssl_mt_of_ok glob skb _ info h, cstr_append_nul hhost]

theorem ntohs_at_congr {skb skb' : sk_buff} {i : Nat}
    (h0 : byte skb' i = byte skb i) (h1 : byte skb' (i + 1) = byte skb (i + 1)) :
    ntohs_at skb' i = ntohs_at skb i := by
  unfold ntohs_at
  rw [h0, h1]

theorem stored_congr {skb skb' : sk_buff} {base : Nat} {bytes : List Nat}
    (h : ∀ i, i < base + bytes.length → byte skb' i = byte skb i)
    (hst : stored skb base bytes) : stored skb' base bytes := by
  intro i hi
  rw [h (base + i) (by omega)]
  exact hst i hi

/-- The octets of an extension list up to the end of the name of a server_name
entry, split from what follows. -/
theorem encode_extensions_server_name (pre post : List Extension) (list_len name_type : Nat)
    (host more : List Nat) :
    encode_extensions (pre ++ server_name list_len name_type host more :: post)
      = (encode_extensions pre ++ (be16 0 ++ (be16 (5 + host.length + more.length) ++
          (be16 list_len ++ ([name_type] ++ (be16 host.length ++ host))))))
        ++ (more ++ encode_extensions post) := by
  rw [encode_extensions_append]
  show _ ++ ((server_name list_len name_type host more).encode ++ _) = _
  rw [encode_server_name]
  simp only [List.append_assoc]

/-- On a complete well-formed ClientHello record whose first entry of type 0
names `host`, the function returns `host`; and so it does on every buffer of
the same length that agrees with the record up to the end of that name. -/
theorem first_server_name_of_client_hello (skb : sk_buff) (S C M : Nat)
    (pre post : List Extension) (list_len name_type : Nat) (host more : List Nat)
    (hello : client_hello skb S C M
      (encode_extensions (pre ++ server_name list_len name_type host more :: post)))
    (hpre : ∀ e ∈ pre, e.extension_id ≠ 0 ∧ e.fits)
    (hhost : ∀ b ∈ host, b ≠ 0) :
    ∀ skb' : sk_buff, skb'.data_len = skb.data_len →
      (∀ i, i < 49 + S + C + M + (encode_extensions pre).length + 9 + host.length →
        byte skb' i = byte skb i) →
      get_ssl_hostname skb' = some (.ok (host ++ [0])) := by
  intro skb' hdl hag
  have hst := hello.extensions
  rw [encode_extensions_server_name, stored_append] at hst
  have hlen : (encode_extensions pre).length + 9 + host.length ≤
      (encode_extensions (pre ++ server_name list_len name_type host more :: post)).length := by
    rw [encode_extensions_server_name]
    simp only [List.length_append, length_be16, List.length_singleton]
    omega
  have hsize : skb.data_len ≤ 65535 := by
    have := hello.record_length
    have := hello.record_bound
    omega
  have hS : byte skb' 43 = S := by rw [hag 43 (by omega)]; exact hello.session_id_length
  have hC : ntohs_at skb' (44 + S) = C := by
    rw [ntohs_at_congr (hag _ (by omega)) (hag _ (by omega))]; exact hello.cipher_length
  have hM : byte skb' (46 + S + C) = M := by
    rw [hag _ (by omega)]; exact hello.compression_length
  have hE : ntohs_at skb' (47 + S + C + M) =
      (encode_extensions (pre ++ server_name list_len name_type host more :: post)).length := by
    rw [ntohs_at_congr (hag _ (by omega)) (hag _ (by omega))]; exact hello.extensions_length
  refine server_name_of_layout skb' S C M _ pre _ list_len name_type host
    (by rw [hag 0 (by omega)]; exact hello.content_type)
    (by rw [hag 3 (by omega), hag 4 (by omega), hdl]; exact hello.record_length)
    (by rw [hag 5 (by omega)]; exact hello.handshake_type)
    hS hC hM hE (by rw [hdl]; exact hello.complete) (by rw [hdl]; exact hsize)
    (stored_congr ?_ hst.1) hlen hpre hhost
  intro i hi
  apply hag
  simp only [List.length_append, length_be16, List.length_singleton] at hi
  omega

/-! ## Termination, truncation and the limit -/

/-- The loop never exhausts a budget of `fuel` iterations when
`extensions_len <= extension_offset + 4 * fuel`: every iteration moves the
cursor by at least 4, without wrapping. -/
theorem scan_extensions_fuel (skb : sk_buff) (offset E : Nat) (hE : E < 65536) :
    ∀ (fuel eo : Nat), E ≤ eo + 4 * fuel → ∃ r, scan_extensions skb offset E fuel eo = some r := by
  intro fuel
  induction fuel with
  | zero =>
    intro eo h
    exact ⟨_, scan_extensions_exit skb offset E 0 eo (by omega)⟩
  | succ fuel ih =>
    intro eo h
    by_cases hlt : eo < E
    · have hl := ntohs_at_lt skb (u32 (offset + u32 (eo + 2)))
      have e2 : u32 (eo + 2) = eo + 2 := u32_eq (by omega)
      have e4 : u32 (eo + 2 + 2) = eo + 4 := by rw [u32_eq (by omega)]
      rw [scan_extensions]
      simp only [if_pos hlt, e2, e4]
      split
      · exact ⟨_, rfl⟩
      · rw [e2] at hl
        rw [u32_eq (by omega)]
        exact ih _ (by omega)
    · exact ⟨_, scan_extensions_exit skb offset E _ eo (by omega)⟩

/-- `get_ssl_hostname` returns on every buffer. -/
theorem get_ssl_hostname_returns (skb : sk_buff) : ∃ r, get_ssl_hostname skb = some r := by
  rw [get_ssl_hostname_eq]
  split
  · exact scan_extensions_fuel skb _ _ (ntohs_at_lt skb _) _ 2 (by omega)
  · exact ⟨_, rfl⟩

/-- Every failure of `get_ssl_hostname` carries the code `EPROTO`. -/
theorem scan_extensions_error (skb : sk_buff) (offset E : Nat) :
    ∀ (fuel eo c : Nat), scan_extensions skb offset E fuel eo = some (.error c) → c = EPROTO := by
  intro fuel
  induction fuel with
  | zero =>
    intro eo c h
    rw [scan_extensions] at h
    split at h
    · simp at h
    · simpa using h.symm
  | succ fuel ih =>
    intro eo c h
    rw [scan_extensions] at h
    simp only [] at h
    split at h
    · split at h
      · simp at h
      · exact ih _ _ h
    · simpa using h.symm

theorem get_ssl_hostname_error (skb : sk_buff) (c : Nat)
    (h : get_ssl_hostname skb = some (.error c)) : c = EPROTO := by
  rw [get_ssl_hostname_eq] at h
  split at h
  · exact scan_extensions_error skb _ _ _ _ c h
  · simpa using h.symm

/-- While `L + 5` fits 16 bits, the limit is `min (L + 5) data_len`. -/
theorem ssl_header_len_of_small (skb : sk_buff)
    (h : byte skb 3 * 256 + byte skb 4 + 5 < 65536) :
    ssl_header_len skb = min (byte skb 3 * 256 + byte skb 4 + 5) skb.data_len := by
  rw [ssl_header_len_eq_min, u16_eq h]

/-- For `L >= 65531` the limit is at most 4 and the record is rejected. -/
theorem ssl_header_len_of_large (skb : sk_buff)
    (h : 65536 ≤ byte skb 3 * 256 + byte skb 4 + 5) :
    ssl_header_len skb ≤ 4 ∧ get_ssl_hostname skb = some (.error EPROTO) := by
  have h3 := byte_lt skb 3
  have h4 := byte_lt skb 4
  have hle : ssl_header_len skb ≤ 4 := by
    rw [ssl_header_len_eq_min]
    have : u16 (byte skb 3 * 256 + byte skb 4 + 5) ≤ 4 := by unfold u16; omega
    exact le_trans (Nat.min_le_left _ _) this
  refine ⟨hle, ?_⟩
  rw [get_ssl_hostname_eq, if_neg]
  intro hc
  have := hc.2.1
  omega

/-- Truncation, as far as the code guards against it: a well-formed
ClientHello record cut at least three octets before its end is rejected,
whatever the memory after the cut holds. -/
theorem truncated_client_hello_rejected (skb : sk_buff) (S C M : Nat) (exts : List Nat)
    (hello : client_hello skb S C M exts) (skb' : sk_buff)
    (hcut : skb'.data_len + 2 < skb.data_len)
    (hag : ∀ i, i < skb'.data_len → byte skb' i = byte skb i) :
    get_ssl_hostname skb' = some (.error EPROTO) := by
  rw [get_ssl_hostname_eq]
  split
  · rename_i hchk
    obtain ⟨_, _, _, h45, hs, hc, ho, he⟩ := hchk
    have hlim := ssl_header_len_le skb'
    have hS : byte skb' 43 = S := by rw [hag 43 (by omega)]; exact hello.session_id_length
    have hoff0 : extensions_offset skb'
        = 47 + S + ntohs_at skb' (44 + S) + byte skb' (46 + S + ntohs_at skb' (44 + S)) := by
      unfold extensions_offset
      simp only [hS]
    rw [hoff0] at ho
    have hC : ntohs_at skb' (44 + S) = C := by
      rw [ntohs_at_congr (hag _ (by omega)) (hag _ (by omega))]; exact hello.cipher_length
    rw [hC] at hoff0 ho
    have hM : byte skb' (46 + S + C) = M := by
      rw [hag _ (by omega)]; exact hello.compression_length
    rw [hM] at hoff0
    rw [hoff0] at he ⊢
    have hcomp := hello.complete
    have hlenE := hello.extensions_length
    by_cases hin : 47 + S + C + M + 1 < skb'.data_len
    · exfalso
      have hE : ntohs_at skb' (47 + S + C + M) = exts.length := by
        rw [ntohs_at_congr (hag _ (by omega)) (hag _ (by omega))]; exact hlenE
      rw [hE] at he
      omega
    · exact scan_extensions_exit _ _ _ _ _ (by omega)
  · rfl

/-! ## The reads determine the outcome -/

theorem strncpy_zero (skb : sk_buff) (src : Nat) : strncpy skb src 0 = [] := rfl

theorem strncpy_succ (skb : sk_buff) (src n : Nat) :
    strncpy skb src (n + 1) =
      if byte skb src = 0 then List.replicate (n + 1) 0
      else byte skb src :: strncpy skb (src + 1) n := by
  unfold strncpy
  simp only [List.range_succ_eq_map, List.map_cons, List.map_map, Nat.add_zero]
  have hf : ((fun i => byte skb (src + i)) ∘ Nat.succ) = fun i => byte skb (src + 1 + i) := by
    funext i
    simp only [Function.comp, Nat.succ_eq_add_one]
    congr 1
    omega
  rw [hf]
  by_cases h : byte skb src = 0
  · simp [h, List.takeWhile_cons]
  · simp [h, List.takeWhile_cons]

theorem strncpy_congr (skb skb' : sk_buff) :
    ∀ (n src : Nat), (∀ i ∈ strncpy_reads skb src n, byte skb' i = byte skb i) →
      strncpy skb' src n = strncpy skb src n := by
  intro n
  induction n with
  | zero => intro src _; rfl
  | succ n ih =>
    intro src h
    have h0 : byte skb' src = byte skb src := h src (by simp [strncpy_reads])
    rw [strncpy_succ, strncpy_succ, h0]
    by_cases hz : byte skb src = 0
    · rw [if_pos hz, if_pos hz]
    · rw [if_neg hz, if_neg hz]
      congr 1
      apply ih
      intro i hi
      apply h
      simp [strncpy_reads, hz, hi]

theorem scan_extensions_congr (skb skb' : sk_buff) (offset E : Nat) :
    ∀ (fuel eo : Nat),
      (∀ i ∈ scan_extensions_reads skb offset E fuel eo, byte skb' i = byte skb i) →
      scan_extensions skb' offset E fuel eo = scan_extensions skb offset E fuel eo := by
  intro fuel
  induction fuel with
  | zero =>
    intro eo _
    rw [scan_extensions, scan_extensions]
  | succ fuel ih =>
    intro eo h
    rw [scan_extensions, scan_extensions]
    by_cases hlt : eo < E
    · rw [scan_extensions_reads] at h
      simp only [if_pos hlt] at h ⊢
      have hid : ntohs_at skb' (u32 (offset + eo)) = ntohs_at skb (u32 (offset + eo)) :=
        ntohs_at_congr (h _ (by simp)) (h _ (by simp))
      have hlen : ntohs_at skb' (u32 (offset + u32 (eo + 2)))
          = ntohs_at skb (u32 (offset + u32 (eo + 2))) :=
        ntohs_at_congr (h _ (by simp)) (h _ (by simp))
      rw [hid, hlen]
      by_cases h0 : ntohs_at skb (u32 (offset + eo)) = 0
      · simp only [h0, if_true] at h ⊢
        have hnl : ntohs_at skb' (u32 (offset + u32 (u32 (u32 (u32 (eo + 2) + 2) + 2) + 1)))
            = ntohs_at skb (u32 (offset + u32 (u32 (u32 (u32 (eo + 2) + 2) + 2) + 1))) :=
          ntohs_at_congr (h _ (by simp)) (h _ (by simp))
        rw [hnl, strncpy_congr skb skb' _ _ (fun i hi => h i (by simp [hi]))]
      · simp only [h0, if_false] at h ⊢
        exact ih _ (fun i hi => h i (by simp [hi]))
    · simp only [if_neg hlt]

/-- The outcome of `get_ssl_hostname` depends on `data_len` and on the octets
at the indices listed by `get_ssl_hostname_reads` only. -/
theorem get_ssl_hostname_congr (skb skb' : sk_buff) (hdl : skb'.data_len = skb.data_len)
    (h : ∀ i ∈ get_ssl_hostname_reads skb, byte skb' i = byte skb i) :
    get_ssl_hostname skb' = get_ssl_hostname skb := by
  unfold get_ssl_hostname_reads at h
  have b0 : byte skb' 0 = byte skb 0 := h 0 (by simp)
  unfold get_ssl_hostname
  rw [b0]
  by_cases c0 : byte skb 0 ≠ 0x16
  · rw [if_pos c0, if_pos c0]
  · rw [if_neg c0, if_neg c0]
    rw [if_neg c0] at h
    have b3 : byte skb' 3 = byte skb 3 := h 3 (by simp)
    have b4 : byte skb' 4 = byte skb 4 := h 4 (by simp)
    have b5 : byte skb' 5 = byte skb 5 := h 5 (by simp)
    have hl : ssl_header_len skb' = ssl_header_len skb := by
      unfold ssl_header_len
      rw [b3, b4, hdl]
    simp only [hl, b5, hdl] at h ⊢
    by_cases c1 : ssl_header_len skb > 4
    · by_cases c2 : byte skb 5 = 1
      · by_cases c3 : 43 + 2 > skb.data_len
        · simp only [if_pos c1, if_pos c2, if_pos c3]
        · simp only [if_pos c1, if_pos c2, if_neg c3] at h ⊢
          have b43 : byte skb' 43 = byte skb 43 := h 43 (by simp)
          rw [b43]
          by_cases c4 : u32 (byte skb 43 + 43 + 2) > ssl_header_len skb
          · simp only [if_pos c4]
          · simp only [if_neg c4] at h ⊢
            have hc : ntohs_at skb' (u32 (43 + byte skb 43 + 1))
                = ntohs_at skb (u32 (43 + byte skb 43 + 1)) :=
              ntohs_at_congr (h _ (by simp)) (h _ (by simp))
            rw [hc]
            generalize u32 (43 + byte skb 43 + ntohs_at skb (u32 (43 + byte skb 43 + 1)) + 2)
              = o1 at h ⊢
            by_cases c5 : o1 > ssl_header_len skb
            · simp only [if_pos c5]
            · simp only [if_neg c5] at h ⊢
              have hm : byte skb' (u32 (o1 + 1)) = byte skb (u32 (o1 + 1)) := h _ (by simp)
              rw [hm]
              generalize u32 (o1 + byte skb (u32 (o1 + 1)) + 2) = o2 at h ⊢
              by_cases c6 : o2 > ssl_header_len skb
              · simp only [if_pos c6]
              · simp only [if_neg c6] at h ⊢
                have he : ntohs_at skb' o2 = ntohs_at skb o2 :=
                  ntohs_at_congr (h o2 (by simp)) (h (o2 + 1) (by simp))
                rw [he]
                split
                · rfl
                · rename_i c7
                  simp only [if_neg c7] at h
                  exact scan_extensions_congr skb skb' _ _ _ _ (fun i hi => h i (by simp [hi]))
      · simp only [if_pos c1, if_neg c2]
    · simp only [if_neg c1]

/-! ## Where the name is taken from -/

theorem scan_extensions_find_exit (skb : sk_buff) (offset E fuel eo : Nat) (h : E ≤ eo) :
    scan_extensions_find skb offset E fuel eo = none := by
  unfold scan_extensions_find
  rw [if_neg (by omega)]

theorem scan_extensions_find_step (skb : sk_buff) (offset E fuel eo : Nat)
    (ho : offset < 65536) (hE : E < 65536) (hlt : eo < E)
    (hid : ntohs_at skb (offset + eo) ≠ 0) :
    scan_extensions_find skb offset E (fuel + 1) eo =
      scan_extensions_find skb offset E fuel (eo + 4 + ntohs_at skb (offset + eo + 2)) := by
  have hl := ntohs_at_lt skb (offset + eo + 2)
  have e1 : u32 (offset + eo) = offset + eo := u32_eq (by omega)
  have e2 : u32 (eo + 2) = eo + 2 := u32_eq (by omega)
  have e3 : u32 (offset + (eo + 2)) = offset + eo + 2 := by rw [u32_eq (by omega)]; omega
  have e4 : u32 (eo + 2 + 2) = eo + 4 := by rw [u32_eq (by omega)]
  have e5 : u32 (eo + 4 + ntohs_at skb (offset + eo + 2))
      = eo + 4 + ntohs_at skb (offset + eo + 2) := u32_eq (by omega)
  rw [scan_extensions_find]
  simp only [e1, e2, e3, e4, e5, if_pos hlt, if_neg hid]

theorem scan_extensions_find_server_name (skb : sk_buff) (offset E fuel eo : Nat)
    (ho : offset < 65536) (hE : E < 65536) (hlt : eo < E)
    (hid : ntohs_at skb (offset + eo) = 0) :
    scan_extensions_find skb offset E (fuel + 1) eo = some (offset + eo) := by
  have e1 : u32 (offset + eo) = offset + eo := u32_eq (by omega)
  rw [scan_extensions_find]
  simp only [e1, if_pos hlt, hid, if_true]

/-- When the loop stops at the entry at index `p`, that entry lies at or after
the cursor and starts inside the `E` octets after `offset`, its type is 0,
and the function returns the name copied from `p + 9`, sized by the field at
`p + 7`. -/
theorem scan_extensions_of_find (skb : sk_buff) (offset E : Nat)
    (ho : offset < 65536) (hE : E < 65536) :
    ∀ (fuel eo p : Nat), scan_extensions_find skb offset E fuel eo = some p →
      offset + eo ≤ p ∧ p < offset + E ∧ ntohs_at skb p = 0 ∧
      scan_extensions skb offset E fuel eo
        = some (.ok (strncpy skb (p + 9) (ntohs_at skb (p + 7)) ++ [0])) := by
  intro fuel
  induction fuel with
  | zero =>
    intro eo p h
    rw [scan_extensions_find] at h
    split at h <;> simp at h
  | succ fuel ih =>
    intro eo p h
    by_cases hlt : eo < E
    · by_cases hid : ntohs_at skb (offset + eo) = 0
      · rw [scan_extensions_find_server_name skb offset E fuel eo ho hE hlt hid] at h
        have hp : p = offset + eo := by simpa using h.symm
        subst hp
        exact ⟨le_refl _, by omega, hid,
          scan_extensions_server_name skb offset E fuel eo ho hE hlt hid⟩
      · rw [scan_extensions_find_step skb offset E fuel eo ho hE hlt hid] at h
        obtain ⟨h1, h2, h3, h4⟩ := ih _ p h
        rw [scan_extensions_step skb offset E fuel eo ho hE hlt hid]
        exact ⟨by omega, h2, h3, h4⟩
    · rw [scan_extensions_find_exit skb offset E _ eo (by omega)] at h
      simp at h

/-- A successful loop stopped at an entry of type 0. -/
theorem scan_extensions_find_of_ok (skb : sk_buff) (offset E : Nat)
    (ho : offset < 65536) (hE : E < 65536) :
    ∀ (fuel eo : Nat) (dest : List Nat), scan_extensions skb offset E fuel eo = some (.ok dest) →
      ∃ p, scan_extensions_find skb offset E fuel eo = some p := by
  intro fuel
  induction fuel with
  | zero =>
    intro eo dest h
    rw [scan_extensions] at h
    split at h <;> simp at h
  | succ fuel ih =>
    intro eo dest h
    by_cases hlt : eo < E
    · by_cases hid : ntohs_at skb (offset + eo) = 0
      · exact ⟨_, scan_extensions_find_server_name skb offset E fuel eo ho hE hlt hid⟩
      · rw [scan_extensions_step skb offset E fuel eo ho hE hlt hid] at h
        rw [scan_extensions_find_step skb offset E fuel eo ho hE hlt hid]
        exact ih _ dest h
    · rw [scan_extensions_exit skb offset E _ eo (by omega)] at h
      simp at h

theorem extensions_offset_lt (skb : sk_buff) (h : header_checks skb) :
    extensions_offset skb < 65536 := by
  have := ssl_header_len_lt skb
  have := h.2.2.2.2.2.2.1
  omega

theorem extensions_offset_ge (skb : sk_buff) : 47 ≤ extensions_offset skb := by
  unfold extensions_offset
  simp only []
  omega

/-- `get_ssl_hostname` succeeds exactly when the header tests pass and the
loop stops at an entry of type 0, at some index `p`; the buffer it returns is
then the result of `strncpy` from `p + 9` with the length read at `p + 7`,
followed by the terminator. -/
theorem get_ssl_hostname_ok_iff (skb : sk_buff) (dest : List Nat) :
    get_ssl_hostname skb = some (.ok dest) ↔
      ∃ p, server_name_index skb = some p ∧
        dest = strncpy skb (p + 9) (ntohs_at skb (p + 7)) ++ [0] := by
  rw [get_ssl_hostname_eq]
  unfold server_name_index
  by_cases hchk : header_checks skb
  · rw [if_pos hchk, if_pos hchk]
    have ho := extensions_offset_lt skb hchk
    have hE := ntohs_at_lt skb (extensions_offset skb)
    constructor
    · intro h
      obtain ⟨p, hp⟩ := scan_extensions_find_of_ok skb _ _ ho hE _ _ dest h
      refine ⟨p, hp, ?_⟩
      have h4 := (scan_extensions_of_find skb _ _ ho hE _ _ p hp).2.2.2
      rw [h4] at h
      simpa using h.symm
    · rintro ⟨p, hp, hd⟩
      rw [(scan_extensions_of_find skb _ _ ho hE _ _ p hp).2.2.2, hd]
  · rw [if_neg hchk, if_neg hchk]
    constructor
    · intro h; simp at h
    · rintro ⟨p, hp, _⟩; simp at hp

/-- Where the entry found lies: after the extensions-length field, and its
first octet inside the `E` octets that follow `offset`. -/
theorem server_name_index_bounds (skb : sk_buff) (p : Nat) (h : server_name_index skb = some p) :
    header_checks skb ∧ extensions_offset skb + 2 ≤ p ∧
      p < extensions_offset skb + ntohs_at skb (extensions_offset skb) ∧ ntohs_at skb p = 0 := by
  unfold server_name_index at h
  by_cases hchk : header_checks skb
  · rw [if_pos hchk] at h
    obtain ⟨h1, h2, h3, _⟩ := scan_extensions_of_find skb _ _ (extensions_offset_lt skb hchk)
      (ntohs_at_lt skb _) _ _ p h
    exact ⟨hchk, h1, h2, h3⟩
  · rw [if_neg hchk] at h
    simp at h

/-! ## The string returned -/

theorem strncpy_eq (skb : sk_buff) (src n : Nat) :
    strncpy skb src n =
      (name_bytes skb src n).takeWhile (fun b => b != 0) ++
        List.replicate (n - ((name_bytes skb src n).takeWhile (fun b => b != 0)).length) 0 := rfl

theorem length_name_bytes (skb : sk_buff) (src n : Nat) : (name_bytes skb src n).length = n := by
  simp [name_bytes]

theorem length_strncpy (skb : sk_buff) (src n : Nat) : (strncpy skb src n).length = n := by
  rw [strncpy_eq, List.length_append, List.length_replicate]
  have := (List.takeWhile_prefix (fun b => b != 0) (l := name_bytes skb src n)).length_le
  rw [length_name_bytes] at this
  omega

theorem takeWhile_append_zeros (l : List Nat) (k : Nat) :
    (l.takeWhile (fun b => b != 0) ++ List.replicate k 0 ++ [0]).takeWhile (fun b => b != 0)
      = l.takeWhile (fun b => b != 0) := by
  induction l with
  | nil =>
    cases k with
    | zero => simp
    | succ k => simp [List.replicate_succ]
  | cons x l ih =>
    by_cases hx : x = 0
    · subst hx
      cases k with
      | zero => simp
      | succ k => simp [List.replicate_succ]
    · have hx' : (x != 0) = true := by simpa using hx
      rw [List.takeWhile_cons, if_pos hx', List.cons_append, List.cons_append,
        List.takeWhile_cons, if_pos hx', ih]

/-- The C string in the buffer that `strncpy` and line 162 produce: the source
octets before the first NUL. -/
theorem cstr_strncpy (skb : sk_buff) (src n : Nat) :
    cstr (strncpy skb src n ++ [0]) = (name_bytes skb src n).takeWhile (fun b => b != 0) := by
  rw [strncpy_eq]
  unfold cstr
  exact takeWhile_append_zeros _ _

theorem cstr_no_nul (buf : List Nat) : ∀ b ∈ cstr buf, b ≠ 0 := by
  intro b hb
  unfold cstr at hb
  have := List.mem_takeWhile_imp hb
  simpa using this

/-! ## Iterations of the loop -/

/-- A larger budget does not change what the loop returns. -/
theorem scan_extensions_fuel_succ (skb : sk_buff) (offset E : Nat) :
    ∀ (fuel eo : Nat) (r : Outcome), scan_extensions skb offset E fuel eo = some r →
      scan_extensions skb offset E (fuel + 1) eo = some r := by
  intro fuel
  induction fuel with
  | zero =>
    intro eo r h
    rw [scan_extensions] at h
    split at h
    · simp at h
    · rename_i hge
      rw [scan_extensions_exit skb offset E _ eo (by omega)]
      exact h
  | succ fuel ih =>
    intro eo r h
    rw [scan_extensions] at h ⊢
    simp only [] at h ⊢
    split
    · rename_i hlt
      rw [if_pos hlt] at h
      split
      · rename_i hid
        rw [if_pos hid] at h
        exact h
      · rename_i hid
        rw [if_neg hid] at h
        exact ih _ r h
    · rename_i hge
      rw [if_neg hge] at h
      exact h

theorem scan_extensions_fuel_le (skb : sk_buff) (offset E : Nat) (fuel eo : Nat) (r : Outcome)
    (h : scan_extensions skb offset E fuel eo = some r) :
    ∀ fuel', fuel ≤ fuel' → scan_extensions skb offset E fuel' eo = some r := by
  intro fuel' hle
  induction fuel' with
  | zero =>
    have : fuel = 0 := by omega
    subst this
    exact h
  | succ n ih =>
    by_cases hn : fuel ≤ n
    · exact scan_extensions_fuel_succ skb offset E n eo r (ih hn)
    · have : fuel = n + 1 := by omega
      subst this
      exact h

/-- From cursor `eo` the body of the loop is entered at most
`ceil ((E - eo) / 4)` times: every iteration moves the cursor by at least 4. -/
theorem scan_extensions_iterations_le (skb : sk_buff) (offset E : Nat) (hE : E < 65536) :
    ∀ (fuel eo : Nat), scan_extensions_iterations skb offset E fuel eo ≤ (E - eo + 3) / 4 := by
  intro fuel
  induction fuel with
  | zero =>
    intro eo
    rw [scan_extensions_iterations]
    split <;> omega
  | succ fuel ih =>
    intro eo
    rw [scan_extensions_iterations]
    by_cases hlt : eo < E
    · have hl := ntohs_at_lt skb (u32 (offset + u32 (eo + 2)))
      have e2 : u32 (eo + 2) = eo + 2 := u32_eq (by omega)
      have e4 : u32 (eo + 2 + 2) = eo + 4 := by rw [u32_eq (by omega)]
      simp only [if_pos hlt, e2, e4]
      split
      · omega
      · rw [e2] at hl
        rw [u32_eq (by omega)]
        have := ih (eo + 4 + ntohs_at skb (u32 (offset + (eo + 2))))
        omega
    · simp only [if_neg hlt]
      omega

/-- The cursor after an iteration that does not return: it has moved by the
four header octets and the entry's length, and has not wrapped. -/
theorem cursor_advance (skb : sk_buff) (offset E eo : Nat) (hE : E < 65536) (hlt : eo < E) :
    u32 (u32 (u32 (eo + 2) + 2) + ntohs_at skb (u32 (offset + u32 (eo + 2))))
      = eo + 4 + ntohs_at skb (u32 (offset + u32 (eo + 2))) := by
  have hl := ntohs_at_lt skb (u32 (offset + u32 (eo + 2)))
  have e2 : u32 (eo + 2) = eo + 2 := u32_eq (by omega)
  have e4 : u32 (eo + 2 + 2) = eo + 4 := by rw [u32_eq (by omega)]
  rw [e2] at hl ⊢
  rw [e4, u32_eq (by omega)]

/-! ## Octets that play no part -/

theorem name_bytes_congr (skb skb' : sk_buff) (src n : Nat)
    (h : ∀ i, src ≤ i → byte skb' i = byte skb i) :
    name_bytes skb' src n = name_bytes skb src n := by
  unfold name_bytes
  apply List.map_congr_left
  intro i _
  exact h _ (by omega)

theorem strncpy_congr_above (skb skb' : sk_buff) (src n : Nat)
    (h : ∀ i, src ≤ i → byte skb' i = byte skb i) :
    strncpy skb' src n = strncpy skb src n := by
  rw [strncpy_eq, strncpy_eq, name_bytes_congr skb skb' src n h]

/-- The header tests, the start of the extension block and its length depend
on `data_len` and on the octets at 0, 3, 4, 5 and from 43 up to the end of the
extensions-length field only. -/
theorem header_congr (skb skb' : sk_buff) (hdl : skb'.data_len = skb.data_len)
    (h : ∀ i, (i = 0 ∨ i = 3 ∨ i = 4 ∨ i = 5 ∨ 43 ≤ i) → i < extensions_offset skb + 2 →
      byte skb' i = byte skb i) :
    extensions_offset skb' = extensions_offset skb ∧
    ntohs_at skb' (extensions_offset skb') = ntohs_at skb (extensions_offset skb) ∧
    (header_checks skb' ↔ header_checks skb) := by
  have hoff : extensions_offset skb = 47 + byte skb 43 + ntohs_at skb (44 + byte skb 43)
      + byte skb (46 + byte skb 43 + ntohs_at skb (44 + byte skb 43)) := rfl
  have hoff' : extensions_offset skb' = 47 + byte skb' 43 + ntohs_at skb' (44 + byte skb' 43)
      + byte skb' (46 + byte skb' 43 + ntohs_at skb' (44 + byte skb' 43)) := rfl
  have b0 := h 0 (by omega) (by omega)
  have b3 := h 3 (by omega) (by omega)
  have b4 := h 4 (by omega) (by omega)
  have b5 := h 5 (by omega) (by omega)
  have b43 := h 43 (by omega) (by omega)
  have hc : ntohs_at skb' (44 + byte skb 43) = ntohs_at skb (44 + byte skb 43) :=
    ntohs_at_congr (h _ (by omega) (by omega)) (h _ (by omega) (by omega))
  have hm : byte skb' (46 + byte skb 43 + ntohs_at skb (44 + byte skb 43))
      = byte skb (46 + byte skb 43 + ntohs_at skb (44 + byte skb 43)) :=
    h _ (by omega) (by omega)
  have ho : extensions_offset skb' = extensions_offset skb := by
    rw [hoff', hoff, b43, hc, hm]
  have he : ntohs_at skb' (extensions_offset skb') = ntohs_at skb (extensions_offset skb) := by
    rw [ho]
    exact ntohs_at_congr (h _ (by omega) (by omega)) (h _ (by omega) (by omega))
  have hl : ssl_header_len skb' = ssl_header_len skb := by
    unfold ssl_header_len
    rw [b3, b4, hdl]
  refine ⟨ho, he, ?_⟩
  unfold header_checks
  rw [he, ho, hl, b0, b5, b43, hc, hdl]

/-- The loop returns the same on two memories that agree from the cursor on. -/
theorem scan_extensions_congr_above (skb skb' : sk_buff) (offset E : Nat)
    (ho : offset < 65536) (hE : E < 65536) :
    ∀ (fuel eo : Nat), (∀ i, offset + eo ≤ i → byte skb' i = byte skb i) →
      scan_extensions skb' offset E fuel eo = scan_extensions skb offset E fuel eo := by
  intro fuel
  induction fuel with
  | zero =>
    intro eo _
    rw [scan_extensions, scan_extensions]
  | succ fuel ih =>
    intro eo h
    by_cases hlt : eo < E
    · have hid : ntohs_at skb' (offset + eo) = ntohs_at skb (offset + eo) :=
        ntohs_at_congr (h _ (by omega)) (h _ (by omega))
      have hlen : ntohs_at skb' (offset + eo + 2) = ntohs_at skb (offset + eo + 2) :=
        ntohs_at_congr (h _ (by omega)) (h _ (by omega))
      by_cases h0 : ntohs_at skb (offset + eo) = 0
      · rw [scan_extensions_server_name skb offset E fuel eo ho hE hlt h0,
          scan_extensions_server_name skb' offset E fuel eo ho hE hlt (by rw [hid]; exact h0),
          ntohs_at_congr (h _ (by omega)) (h _ (by omega)),
          strncpy_congr_above skb skb' _ _ (fun i hi => h i (by omega))]
      · rw [scan_extensions_step skb offset E fuel eo ho hE hlt h0,
          scan_extensions_step skb' offset E fuel eo ho hE hlt (by rw [hid]; exact h0), hlen]
        exact ih _ (fun i hi => h i (by omega))
    · rw [scan_extensions_exit skb offset E _ eo (by omega),
        scan_extensions_exit skb' offset E _ eo (by omega)]

/-- When the loop stops at the entry at index `p`, it returns the same on
every memory that agrees from the cursor on except at `p + 2, ..., p + 6`: the
entry's length field, its list length and its name type. -/
theorem scan_extensions_congr_window (skb skb' : sk_buff) (offset E : Nat)
    (ho : offset < 65536) (hE : E < 65536) :
    ∀ (fuel eo p : Nat), scan_extensions_find skb offset E fuel eo = some p →
      (∀ i, offset + eo ≤ i → (i < p + 2 ∨ p + 6 < i) → byte skb' i = byte skb i) →
      scan_extensions skb' offset E fuel eo = scan_extensions skb offset E fuel eo ∧
      scan_extensions_find skb' offset E fuel eo = some p := by
  intro fuel
  induction fuel with
  | zero =>
    intro eo p hf _
    rw [scan_extensions_find] at hf
    split at hf <;> simp at hf
  | succ fuel ih =>
    intro eo p hf h
    by_cases hlt : eo < E
    · by_cases h0 : ntohs_at skb (offset + eo) = 0
      · rw [scan_extensions_find_server_name skb offset E fuel eo ho hE hlt h0] at hf
        have hp : p = offset + eo := by simpa using hf.symm
        subst hp
        have hid : ntohs_at skb' (offset + eo) = 0 := by
          rw [ntohs_at_congr (h _ (by omega) (by omega)) (h _ (by omega) (by omega))]
          exact h0
        rw [scan_extensions_server_name skb offset E fuel eo ho hE hlt h0,
          scan_extensions_server_name skb' offset E fuel eo ho hE hlt hid,
          ntohs_at_congr (h _ (by omega) (by omega)) (h _ (by omega) (by omega)),
          strncpy_congr_above skb skb' _ _ (fun i hi => h i (by omega) (by omega))]
        exact ⟨rfl, scan_extensions_find_server_name skb' offset E fuel eo ho hE hlt hid⟩
      · rw [scan_extensions_find_step skb offset E fuel eo ho hE hlt h0] at hf
        have hge := (scan_extensions_of_find skb offset E ho hE _ _ p hf).1
        have hid : ntohs_at skb' (offset + eo) = ntohs_at skb (offset + eo) :=
          ntohs_at_congr (h _ (by omega) (by omega)) (h _ (by omega) (by omega))
        have hlen : ntohs_at skb' (offset + eo + 2) = ntohs_at skb (offset + eo + 2) :=
          ntohs_at_congr (h _ (by omega) (by omega)) (h _ (by omega) (by omega))
        rw [scan_extensions_step skb offset E fuel eo ho hE hlt h0,
          scan_extensions_step skb' offset E fuel eo ho hE hlt (by rw [hid]; exact h0),
          scan_extensions_find_step skb' offset E fuel eo ho hE hlt (by rw [hid]; exact h0), hlen]
        exact ih _ p hf (fun i hi hw => h i (by omega) hw)
    · rw [scan_extensions_find_exit skb offset E _ eo (by omega)] at hf
      simp at hf

/-! ## The claims -/

/-- C2: for every packet from which `get_ssl_hostname` extracts a hostname
(the C string of `dest`) and every pattern, `ssl_mt` returns `glob_match`
of pattern and hostname XOR the invert flag, `glob_match` being any Boolean
function; so with the invert bit set it returns the negation of what it
returns with the bit clear. -/
theorem ssl_mt_invert_is_xor (glob : List Nat → List Nat → Bool) (skb : sk_buff)
    (dest : List Nat) (h : get_ssl_hostname skb = some (.ok dest)) :
    (∀ info : xt_ssl_info,
      ssl_mt glob skb info = some (xor (glob info.ssl_host (cstr dest)) (invert_flag info))) ∧
    (∀ (p : List Nat) (set clear : Nat),
      invert_flag ⟨set, p⟩ = true → invert_flag ⟨clear, p⟩ = false →
      ssl_mt glob skb ⟨clear, p⟩ = some (glob p (cstr dest)) ∧
      ssl_mt glob skb ⟨set, p⟩ = some (!(glob p (cstr dest)))) := by
  refine ⟨fun info => ssl_mt_of_ok glob skb dest info h, ?_⟩
  intro p set clear hon hoff
  rw [ssl_mt_of_ok glob skb dest _ h, ssl_mt_of_ok glob skb dest _ h, hon, hoff]
  simp

/-- Witness of C2 on the `test.io` ClientHello with the spec-modelled glob. -/
theorem ssl_mt_invert_is_xor_witness :
    get_ssl_hostname (sk_buff.of_bytes hello_test_io (fun _ => 0))
      = some (.ok (ascii "test.io" ++ [0])) ∧
    ssl_mt glob_match (sk_buff.of_bytes hello_test_io (fun _ => 0)) ⟨0, ascii "test.*"⟩
      = some true ∧
    ssl_mt glob_match (sk_buff.of_bytes hello_test_io (fun _ => 0)) ⟨1, ascii "test.*"⟩
      = some false :=
  ⟨by decide,
   ((ssl_mt_invert_is_xor glob_match (sk_buff.of_bytes hello_test_io (fun _ => 0))
      (ascii "test.io" ++ [0]) (by decide)).2 (ascii "test.*") 1 0 (by decide) (by decide)).1.trans
      (by decide),
   ((ssl_mt_invert_is_xor glob_match (sk_buff.of_bytes hello_test_io (fun _ => 0))
      (ascii "test.io" ++ [0]) (by decide)).2 (ascii "test.*") 1 0 (by decide) (by decide)).2.trans
      (by decide)⟩

/-- C3: for every packet on which `get_ssl_hostname` fails, `ssl_mt` returns
false for every pattern and every value of the invert mask. -/
theorem ssl_mt_false_of_parse_failure (glob : List Nat → List Nat → Bool) (skb : sk_buff)
    (c : Nat) (h : get_ssl_hostname skb = some (.error c)) (info : xt_ssl_info) :
    ssl_mt glob skb info = some false :=
  ssl_mt_of_error glob skb c info h

/-- Witness of C3: a ServerHello record, pattern `*`, invert set. -/
theorem ssl_mt_false_of_parse_failure_witness :
    get_ssl_hostname (sk_buff.of_bytes server_hello_test_io (fun _ => 0)) = some (.error EPROTO) ∧
    ssl_mt glob_match (sk_buff.of_bytes server_hello_test_io (fun _ => 0)) ⟨1, ascii "*"⟩
      = some false :=
  ⟨by decide,
   ssl_mt_false_of_parse_failure glob_match (sk_buff.of_bytes server_hello_test_io (fun _ => 0))
     EPROTO (by decide) ⟨1, ascii "*"⟩⟩

/-- C4: for every buffer whose first octet is not `0x16`, `get_ssl_hostname`
fails with `EPROTO` and `ssl_mt` returns false for every pattern and invert
mask, whatever the other octets and the length are. -/
theorem not_handshake_rejected (skb : sk_buff) (h : byte skb 0 ≠ 0x16) :
    get_ssl_hostname skb = some (.error EPROTO) ∧
    ∀ (glob : List Nat → List Nat → Bool) (info : xt_ssl_info),
      ssl_mt glob skb info = some false := by
  have hg : get_ssl_hostname skb = some (.error EPROTO) := by
    unfold get_ssl_hostname
    rw [if_pos h]
  exact ⟨hg, fun glob info => ssl_mt_of_error glob skb EPROTO info hg⟩

/-- Witness of C4: the `test.io` record with first octet `0x17`, pattern `*`. -/
theorem not_handshake_rejected_witness :
    byte (sk_buff.of_bytes appdata_test_io (fun _ => 0)) 0 ≠ 0x16 ∧
    get_ssl_hostname (sk_buff.of_bytes appdata_test_io (fun _ => 0)) = some (.error EPROTO) ∧
    ssl_mt glob_match (sk_buff.of_bytes appdata_test_io (fun _ => 0)) ⟨0, ascii "*"⟩
      = some false :=
  ⟨by decide,
   (not_handshake_rejected (sk_buff.of_bytes appdata_test_io (fun _ => 0)) (by decide)).1,
   (not_handshake_rejected (sk_buff.of_bytes appdata_test_io (fun _ => 0)) (by decide)).2
     glob_match ⟨0, ascii "*"⟩⟩

/-- C5: for every buffer whose first octet is `0x16` and whose handshake type
at offset 5 is not `0x01`, `get_ssl_hostname` fails with `EPROTO` and `ssl_mt`
returns false for every pattern and invert mask, whatever follows. -/
theorem not_client_hello_rejected (skb : sk_buff) (h0 : byte skb 0 = 0x16)
    (h5 : byte skb 5 ≠ 0x01) :
    get_ssl_hostname skb = some (.error EPROTO) ∧
    ∀ (glob : List Nat → List Nat → Bool) (info : xt_ssl_info),
      ssl_mt glob skb info = some false := by
  have hg : get_ssl_hostname skb = some (.error EPROTO) := by
    unfold get_ssl_hostname
    simp only [h0, ne_eq, not_true_eq_false, if_false, if_neg h5]
    split <;> rfl
  exact ⟨hg, fun glob info => ssl_mt_of_error glob skb EPROTO info hg⟩

/-- Witness of C5: the `test.io` record with handshake type `0x02`; it differs
from a ClientHello that yields `test.io` in that octet only. -/
theorem not_client_hello_rejected_witness :
    byte (sk_buff.of_bytes server_hello_test_io (fun _ => 0)) 0 = 0x16 ∧
    byte (sk_buff.of_bytes server_hello_test_io (fun _ => 0)) 5 ≠ 0x01 ∧
    get_ssl_hostname (sk_buff.of_bytes server_hello_test_io (fun _ => 0))
      = some (.error EPROTO) ∧
    ssl_mt glob_match (sk_buff.of_bytes server_hello_test_io (fun _ => 0)) ⟨0, ascii "*"⟩
      = some false :=
  ⟨by decide, by decide,
   (not_client_hello_rejected (sk_buff.of_bytes server_hello_test_io (fun _ => 0))
     (by decide) (by decide)).1,
   (not_client_hello_rejected (sk_buff.of_bytes server_hello_test_io (fun _ => 0))
     (by decide) (by decide)).2 glob_match ⟨0, ascii "*"⟩⟩


/-- C1: for every buffer that holds one complete, well-formed TLS ClientHello
record (first octet `0x16`, record length equal to the buffer length minus 5
and within the TLS bound, handshake type `0x01`, session-id length `S` at
offset 43, cipher-suite length `C`, compression length `M`, extensions length
`E` and `E` octets of back-to-back entries) whose first entry of type 0 names
a host without a zero octet, `get_ssl_hostname` returns 0 with `*dest` holding
exactly that host and its terminator, wherever the entry sits in the list, and
`ssl_mt` returns `glob_match(pattern, host)` XOR the invert flag. -/
theorem client_hello_server_name (skb : sk_buff) (S C M : Nat) (pre post : List Extension)
    (list_len name_type : Nat) (host more : List Nat)
    (hello : client_hello skb S C M
      (encode_extensions (pre ++ server_name list_len name_type host more :: post)))
    (hpre : ∀ e ∈ pre, e.extension_id ≠ 0 ∧ e.fits)
    (hhost : ∀ b ∈ host, b ≠ 0) :
    get_ssl_hostname skb = some (.ok (host ++ [0])) ∧ cstr (host ++ [0]) = host ∧
    ∀ (glob : List Nat → List Nat → Bool) (info : xt_ssl_info),
      ssl_mt glob skb info = some (xor (glob info.ssl_host host) (invert_flag info)) := by
  have hg := first_server_name_of_client_hello skb S C M pre post list_len name_type host more
    hello hpre hhost skb rfl (fun _ _ => rfl)
  exact ⟨hg, cstr_append_nul hhost, fun glob info => ssl_mt_of_cstring glob skb host info hg hhost⟩

/-- Witness of C1: scenario 1 of the spec, the minimal ClientHello with
`S = 0`, `C = 2`, `M = 1` and host `test.io`. -/
theorem client_hello_server_name_witness :
    client_hello (sk_buff.of_bytes hello_test_io (fun _ => 0)) 0 2 1
      (encode_extensions ([] ++ server_name 10 0 (ascii "test.io") [] :: [])) ∧
    get_ssl_hostname (sk_buff.of_bytes hello_test_io (fun _ => 0))
      = some (.ok (ascii "test.io" ++ [0])) ∧
    ssl_mt glob_match (sk_buff.of_bytes hello_test_io (fun _ => 0)) ⟨0, ascii "test.*"⟩
      = some true ∧
    ssl_mt glob_match (sk_buff.of_bytes hello_test_io (fun _ => 0)) ⟨XT_SSL_OP_HOST, ascii "test.*"⟩
      = some false :=
  have hello : client_hello (sk_buff.of_bytes hello_test_io (fun _ => 0)) 0 2 1
      (encode_extensions ([] ++ server_name 10 0 (ascii "test.io") [] :: [])) :=
    ⟨by decide, by decide, by decide, by decide, by decide, by decide, by decide, by decide,
      by decide, by decide⟩
  have h := client_hello_server_name (sk_buff.of_bytes hello_test_io (fun _ => 0)) 0 2 1 [] []
    10 0 (ascii "test.io") [] hello (by decide) (by decide)
  ⟨hello, h.1, (h.2.2 glob_match ⟨0, ascii "test.*"⟩).trans (by decide),
    (h.2.2 glob_match ⟨XT_SSL_OP_HOST, ascii "test.*"⟩).trans (by decide)⟩

/-- C6 (the code departs from the claim): the `test.io` ClientHello cut two
octets before the host name ends is not rejected. The test of line 113
compares `offset + extensions_len` with the limit although the extension block
ends at `offset + 2 + extensions_len`, and the name is copied without any
test, so `get_ssl_hostname` returns 0 and the name is completed with the two
octets that follow the payload in memory: with NULs there it is the partial
name `test.`, which matches `test.*`; with `io` there it is `test.io`. Cut
three octets before the end, the record is rejected. -/
theorem truncated_hello_not_rejected :
    get_ssl_hostname (sk_buff.of_bytes (hello_test_io.take 66) (fun _ => 0))
      = some (.ok (ascii "test." ++ [0, 0, 0])) ∧
    ssl_mt glob_match (sk_buff.of_bytes (hello_test_io.take 66) (fun _ => 0))
      ⟨0, ascii "test.*"⟩ = some true ∧
    get_ssl_hostname (sk_buff.of_bytes (hello_test_io.take 66) (fun i => (ascii "io").getD i 0))
      = some (.ok (ascii "test.io" ++ [0])) ∧
    get_ssl_hostname (sk_buff.of_bytes (hello_test_io.take 67) (fun _ => 0))
      = some (.ok (ascii "test.i" ++ [0, 0])) ∧
    get_ssl_hostname (sk_buff.of_bytes (hello_test_io.take 65) (fun _ => 0))
      = some (.error EPROTO) := by
  refine ⟨?_, ?_, ?_, ?_, ?_⟩ <;> decide

/-- C7 (the code departs from the claim): reads at and beyond the limit.
On the one-octet payload `0x16` the limit is 1 and the function reads
`data[3]`, `data[4]` and `data[5]` (lines 44-45 precede every length test).
On the complete 68-octet `test.io` record whose name-length field says 16 the
limit is 68, every test passes, and `strncpy` reads `data[61..76]`: the
returned name holds nine octets of the memory that follows the payload. -/
theorem reads_beyond_limit :
    ssl_header_len (sk_buff.of_bytes [0x16] (fun _ => 0)) = 1 ∧
    get_ssl_hostname_reads (sk_buff.of_bytes [0x16] (fun _ => 0)) = [0, 3, 4, 5] ∧
    ssl_header_len (sk_buff.of_bytes hello_long_name (fun _ => 0x41)) = 68 ∧
    (sk_buff.of_bytes hello_long_name (fun _ => 0x41)).data_len = 68 ∧
    get_ssl_hostname_reads (sk_buff.of_bytes hello_long_name (fun _ => 0x41))
      = [0, 3, 4, 5, 43, 44, 45, 48, 50, 51, 52, 53, 54, 55, 58, 59, 60] ++
        (List.range 16).map (fun i => 61 + i) ∧
    get_ssl_hostname (sk_buff.of_bytes hello_long_name (fun _ => 0x41))
      = some (.ok (ascii "test.io" ++ List.replicate 9 0x41 ++ [0])) := by
  refine ⟨?_, ?_, ?_, ?_, ?_, ?_⟩ <;> decide

/-- C8 (the code departs from the claim): `ssl_header_len` is a `u_int16_t`,
so the sum `L + 5` wraps for `L >= 65531`. On the 68-octet `test.io` record
that declares `L = 0xffff` the limit is 4, not `min (L + 5) 68 = 68`, and the
record is rejected at line 51 instead of being parsed over the octets
available. -/
theorem limit_wraps_at_16_bits :
    byte (sk_buff.of_bytes hello_long_record (fun _ => 0)) 0 = 0x16 ∧
    byte (sk_buff.of_bytes hello_long_record (fun _ => 0)) 3 * 256
      + byte (sk_buff.of_bytes hello_long_record (fun _ => 0)) 4 = 65535 ∧
    (sk_buff.of_bytes hello_long_record (fun _ => 0)).data_len = 68 ∧
    ssl_header_len (sk_buff.of_bytes hello_long_record (fun _ => 0)) = 4 ∧
    min (65535 + 5) (sk_buff.of_bytes hello_long_record (fun _ => 0)).data_len = 68 ∧
    get_ssl_hostname (sk_buff.of_bytes hello_long_record (fun _ => 0)) = some (.error EPROTO) := by
  refine ⟨?_, ?_, ?_, ?_, ?_, ?_⟩ <;> decide

/-- C9: for every well-formed ClientHello whose extension list holds two (or
more) entries of type 0, `get_ssl_hostname` returns the name of the first one
in list order; and it returns that name on every buffer of the same length
that agrees with the record up to the end of the first name, so nothing after
that name, the later server_name entries included, is inspected. -/
theorem first_of_two_server_names (skb : sk_buff) (S C M : Nat)
    (pre mid post : List Extension) (list_len1 name_type1 : Nat) (host1 more1 : List Nat)
    (list_len2 name_type2 : Nat) (host2 more2 : List Nat)
    (hello : client_hello skb S C M
      (encode_extensions (pre ++ server_name list_len1 name_type1 host1 more1 ::
        (mid ++ server_name list_len2 name_type2 host2 more2 :: post))))
    (hpre : ∀ e ∈ pre, e.extension_id ≠ 0 ∧ e.fits)
    (hhost : ∀ b ∈ host1, b ≠ 0) :
    get_ssl_hostname skb = some (.ok (host1 ++ [0])) ∧
    ∀ skb' : sk_buff, skb'.data_len = skb.data_len →
      (∀ i, i < 49 + S + C + M + (encode_extensions pre).length + 9 + host1.length →
        byte skb' i = byte skb i) →
      get_ssl_hostname skb' = some (.ok (host1 ++ [0])) := by
  have h := first_server_name_of_client_hello skb S C M pre
    (mid ++ server_name list_len2 name_type2 host2 more2 :: post) list_len1 name_type1 host1
    more1 hello hpre hhost
  exact ⟨h skb rfl (fun _ _ => rfl), h⟩

/-- Witness of C9: a record with the names `a.io` and `b.io`, and the same
record with everything after `a.io` overwritten with `0xff`. -/
theorem first_of_two_server_names_witness :
    get_ssl_hostname (sk_buff.of_bytes hello_two_names (fun _ => 0))
      = some (.ok (ascii "a.io" ++ [0])) ∧
    get_ssl_hostname
        (sk_buff.of_bytes (hello_two_names.take 73 ++ List.replicate 19 0xff) (fun _ => 0))
      = some (.ok (ascii "a.io" ++ [0])) :=
  have hello : client_hello (sk_buff.of_bytes hello_two_names (fun _ => 0)) 0 2 1
      (encode_extensions ([⟨10, [0x00, 0x02, 0x00, 0x17]⟩] ++
        server_name 7 0 (ascii "a.io") [] ::
        ([⟨11, [0x01, 0x00]⟩] ++ server_name 7 0 (ascii "b.io") [] :: []))) :=
    ⟨by decide, by decide, by decide, by decide, by decide, by decide, by decide, by decide,
      by decide, by decide⟩
  have h := first_of_two_server_names (sk_buff.of_bytes hello_two_names (fun _ => 0)) 0 2 1
    [⟨10, [0x00, 0x02, 0x00, 0x17]⟩] [⟨11, [0x01, 0x00]⟩] [] 7 0 (ascii "a.io") []
    7 0 (ascii "b.io") [] hello (by decide) (by decide)
  ⟨h.1, h.2 (sk_buff.of_bytes (hello_two_names.take 73 ++ List.replicate 19 0xff) (fun _ => 0))
    (by decide) (by decide)⟩

/-- C10: for every well-formed ClientHello record whose extension list,
possibly empty, holds no entry of type 0, `get_ssl_hostname` fails with
`EPROTO` and `ssl_mt` returns false for every pattern and invert mask. -/
theorem no_server_name_rejected (skb : sk_buff) (S C M : Nat) (exts : List Extension)
    (hello : client_hello skb S C M (encode_extensions exts))
    (hno : ∀ e ∈ exts, e.extension_id ≠ 0 ∧ e.fits) :
    get_ssl_hostname skb = some (.error EPROTO) ∧
    ∀ (glob : List Nat → List Nat → Bool) (info : xt_ssl_info),
      ssl_mt glob skb info = some false := by
  have hsize : skb.data_len ≤ 65535 := by
    have := hello.record_length
    have := hello.record_bound
    omega
  obtain ⟨hchk, hoff, hlen⟩ := header_checks_of_layout hello.content_type hello.record_length
    hello.handshake_type hello.session_id_length hello.cipher_length hello.compression_length
    hello.extensions_length hello.complete hsize
  have hg : get_ssl_hostname skb = some (.error EPROTO) := by
    have hE := ntohs_at_lt skb (extensions_offset skb)
    have hcnt := length_encode_extensions_ge exts
    have ho : extensions_offset skb < 65536 := by
      have := hello.complete
      omega
    rw [get_ssl_hostname_eq, if_pos hchk, hlen]
    rw [hlen] at hE
    obtain ⟨fuel, hfuel⟩ : ∃ fuel, (encode_extensions exts).length = fuel + exts.length :=
      ⟨(encode_extensions exts).length - exts.length, by omega⟩
    have hskip := scan_extensions_skip skb (extensions_offset skb)
      (encode_extensions exts).length ho hE exts fuel 0
      (by
        have h2 : 47 + S + C + M + 2 + 0 = 49 + S + C + M := by omega
        rw [hoff, h2]; exact hello.extensions) hno (by omega)
    rw [← hfuel] at hskip
    rw [hskip]
    exact scan_extensions_exit _ _ _ _ _ (by omega)
  exact ⟨hg, fun glob info => ssl_mt_of_error glob skb EPROTO info hg⟩

/-- Witness of C10: a record with two extensions of types 10 and 11, pattern
`*`, and the record with an empty extension list. -/
theorem no_server_name_rejected_witness :
    get_ssl_hostname (sk_buff.of_bytes hello_no_name (fun _ => 0)) = some (.error EPROTO) ∧
    ssl_mt glob_match (sk_buff.of_bytes hello_no_name (fun _ => 0)) ⟨0, ascii "*"⟩
      = some false ∧
    get_ssl_hostname (sk_buff.of_bytes hello_no_extensions (fun _ => 0))
      = some (.error EPROTO) :=
  have h := no_server_name_rejected (sk_buff.of_bytes hello_no_name (fun _ => 0)) 0 2 1
    [⟨10, [0x00, 0x02, 0x00, 0x17]⟩, ⟨11, [0x01, 0x00]⟩]
    ⟨by decide, by decide, by decide, by decide, by decide, by decide, by decide, by decide,
      by decide, by decide⟩ (by decide)
  have h0 := no_server_name_rejected (sk_buff.of_bytes hello_no_extensions (fun _ => 0)) 0 2 1 []
    ⟨by decide, by decide, by decide, by decide, by decide, by decide, by decide, by decide,
      by decide, by decide⟩ (by decide)
  ⟨h.1, h.2 glob_match ⟨0, ascii "*"⟩, h0.1⟩

/-- Two payloads of the same length, followed by the same memory, agree
wherever their octets do. -/
theorem of_bytes_agree (l l' : List Nat) (after : Nat → Nat) (P : Nat → Prop)
    (hlen : l'.length = l.length)
    (h : ∀ i, i < l.length → P i → l'.getD i 0 % 256 = l.getD i 0 % 256) :
    ∀ i, P i → byte (sk_buff.of_bytes l' after) i = byte (sk_buff.of_bytes l after) i := by
  intro i hi
  unfold byte sk_buff.of_bytes
  simp only [hlen]
  by_cases hlt : i < l.length
  · simp only [if_pos hlt]
    exact h i hlt hi
  · simp only [if_neg hlt]

/-- Counterexample to C11 as stated: in the record `hello_nul_name` the
server_name entry is found at index 52, its name-length field says 7 and the
seven octets after it are `te\0t.io`; `get_ssl_hostname` returns 0, but the
name it returns is `te`, two octets, and the buffer holds NULs where the
packet holds `t.io`. -/
theorem nul_cuts_the_name :
    server_name_index (sk_buff.of_bytes hello_nul_name (fun _ => 0)) = some 52 ∧
    ntohs_at (sk_buff.of_bytes hello_nul_name (fun _ => 0)) (52 + 7) = 7 ∧
    name_bytes (sk_buff.of_bytes hello_nul_name (fun _ => 0)) (52 + 9) 7
      = [0x74, 0x65, 0x00, 0x74, 0x2e, 0x69, 0x6f] ∧
    get_ssl_hostname (sk_buff.of_bytes hello_nul_name (fun _ => 0))
      = some (.ok [0x74, 0x65, 0, 0, 0, 0, 0, 0]) ∧
    cstr [0x74, 0x65, 0, 0, 0, 0, 0, 0] = [0x74, 0x65] ∧
    cstr [0x74, 0x65, 0, 0, 0, 0, 0, 0]
      ≠ name_bytes (sk_buff.of_bytes hello_nul_name (fun _ => 0)) (52 + 9) 7 := by
  refine ⟨?_, ?_, ?_, ?_, ?_, ?_⟩ <;> decide

/-- C11, amended: whenever `get_ssl_hostname` succeeds, with the server_name
entry found at index `p` and `nameLen` the field at `p + 7`, the buffer it
returns has `nameLen + 1` octets and the host name in it is the `nameLen`
octets that follow the name-length field cut at their first zero octet; it
consists of exactly `nameLen` octets, equal to those octets, whenever none of
them is zero. -/
theorem hostname_is_name_up_to_nul (skb : sk_buff) (dest : List Nat)
    (h : get_ssl_hostname skb = some (.ok dest)) :
    ∃ p, server_name_index skb = some p ∧
      dest.length = ntohs_at skb (p + 7) + 1 ∧
      cstr dest = (name_bytes skb (p + 9) (ntohs_at skb (p + 7))).takeWhile (fun b => b != 0) ∧
      ((∀ b ∈ name_bytes skb (p + 9) (ntohs_at skb (p + 7)), b ≠ 0) →
        cstr dest = name_bytes skb (p + 9) (ntohs_at skb (p + 7)) ∧
        (cstr dest).length = ntohs_at skb (p + 7)) := by
  obtain ⟨p, hp, hd⟩ := (get_ssl_hostname_ok_iff skb dest).1 h
  refine ⟨p, hp, ?_, ?_, ?_⟩
  · rw [hd, List.length_append, length_strncpy, List.length_singleton]
  · rw [hd, cstr_strncpy]
  · intro hnz
    have htw : (name_bytes skb (p + 9) (ntohs_at skb (p + 7))).takeWhile (fun b => b != 0)
        = name_bytes skb (p + 9) (ntohs_at skb (p + 7)) := by
      rw [List.takeWhile_eq_self_iff]
      intro b hb
      simpa using hnz b hb
    rw [hd, cstr_strncpy, htw, length_name_bytes]
    exact ⟨rfl, rfl⟩

/-- Witness of C11, amended: the `test.io` record; the name is found at index
52, has no zero octet and is returned whole. -/
theorem hostname_is_name_up_to_nul_witness :
    get_ssl_hostname (sk_buff.of_bytes hello_test_io (fun _ => 0))
      = some (.ok (ascii "test.io" ++ [0])) ∧
    ∃ p, server_name_index (sk_buff.of_bytes hello_test_io (fun _ => 0)) = some p ∧
      (ascii "test.io" ++ [0]).length
        = ntohs_at (sk_buff.of_bytes hello_test_io (fun _ => 0)) (p + 7) + 1 ∧
      cstr (ascii "test.io" ++ [0])
        = (name_bytes (sk_buff.of_bytes hello_test_io (fun _ => 0)) (p + 9)
            (ntohs_at (sk_buff.of_bytes hello_test_io (fun _ => 0)) (p + 7))).takeWhile
              (fun b => b != 0) ∧
      ((∀ b ∈ name_bytes (sk_buff.of_bytes hello_test_io (fun _ => 0)) (p + 9)
            (ntohs_at (sk_buff.of_bytes hello_test_io (fun _ => 0)) (p + 7)), b ≠ 0) →
        cstr (ascii "test.io" ++ [0])
          = name_bytes (sk_buff.of_bytes hello_test_io (fun _ => 0)) (p + 9)
              (ntohs_at (sk_buff.of_bytes hello_test_io (fun _ => 0)) (p + 7)) ∧
        (cstr (ascii "test.io" ++ [0])).length
          = ntohs_at (sk_buff.of_bytes hello_test_io (fun _ => 0)) (p + 7)) :=
  ⟨by decide,
   hostname_is_name_up_to_nul (sk_buff.of_bytes hello_test_io (fun _ => 0))
     (ascii "test.io" ++ [0]) (by decide)⟩

/-- What the code guarantees of the host name on every success, with the
server_name entry found at index `p`: it holds no zero octet, it is at most as
long as the name-length field at `p + 7` says, and it is a prefix of the
octets of memory that follow that field; these are octets of the payload when
the name ends inside it, `p + 9 + nameLen <= data_len`, which no test of the
function ensures. -/
theorem cstr_dest_prefix_of_memory (skb : sk_buff) (dest : List Nat)
    (h : get_ssl_hostname skb = some (.ok dest)) :
    ∃ p, server_name_index skb = some p ∧
      (∀ b ∈ cstr dest, b ≠ 0) ∧
      (cstr dest).length ≤ ntohs_at skb (p + 7) ∧
      cstr dest <+: name_bytes skb (p + 9) (ntohs_at skb (p + 7)) ∧
      (p + 9 + ntohs_at skb (p + 7) ≤ skb.data_len →
        cstr dest <+: packet_name_bytes skb (p + 9) (ntohs_at skb (p + 7))) := by
  obtain ⟨p, hp, hd⟩ := (get_ssl_hostname_ok_iff skb dest).1 h
  have hpre : cstr dest <+: name_bytes skb (p + 9) (ntohs_at skb (p + 7)) := by
    rw [hd, cstr_strncpy]
    exact List.takeWhile_prefix _
  have hlen := hpre.length_le
  rw [length_name_bytes] at hlen
  refine ⟨p, hp, cstr_no_nul dest, hlen, hpre, ?_⟩
  intro hin
  unfold packet_name_bytes
  rw [Nat.min_eq_left (by omega)]
  exact hpre

/-- C12 (the code departs from the claim): the host name returned is not
always a prefix of the name octets in the packet. On the complete 68-octet
record `hello_long_name`, followed in memory by octets `0x41`, the server_name
entry is found at index 52 and its name-length field says 16, but only the
seven octets `test.io` of the name lie in the payload. No test compares the
name with `data_len` or the limit, so `get_ssl_hostname` returns 0 and the
host name is `test.io` followed by nine octets from outside the packet: it
has no zero octet and is no longer than the declared 16, yet it is longer
than the name octets the packet holds and is not a prefix of them. -/
theorem hostname_from_outside_packet :
    (sk_buff.of_bytes hello_long_name (fun _ => 0x41)).data_len = 68 ∧
    server_name_index (sk_buff.of_bytes hello_long_name (fun _ => 0x41)) = some 52 ∧
    ntohs_at (sk_buff.of_bytes hello_long_name (fun _ => 0x41)) (52 + 7) = 16 ∧
    get_ssl_hostname (sk_buff.of_bytes hello_long_name (fun _ => 0x41))
      = some (.ok (ascii "test.io" ++ List.replicate 9 0x41 ++ [0])) ∧
    cstr (ascii "test.io" ++ List.replicate 9 0x41 ++ [0])
      = ascii "test.io" ++ List.replicate 9 0x41 ∧
    (∀ b ∈ cstr (ascii "test.io" ++ List.replicate 9 0x41 ++ [0]), b ≠ 0) ∧
    (cstr (ascii "test.io" ++ List.replicate 9 0x41 ++ [0])).length ≤ 16 ∧
    packet_name_bytes (sk_buff.of_bytes hello_long_name (fun _ => 0x41)) (52 + 9) 16
      = ascii "test.io" ∧
    ¬ (cstr (ascii "test.io" ++ List.replicate 9 0x41 ++ [0])
        <+: packet_name_bytes (sk_buff.of_bytes hello_long_name (fun _ => 0x41)) (52 + 9) 16) := by
  refine ⟨by decide, by decide, by decide, by decide, by decide, by decide, by decide,
    by decide, ?_⟩
  intro hpre
  have hlen := hpre.length_le
  revert hlen
  decide

/-- C13 (the code departs from the claim): line 113 tests
`extensions_len + offset` against the limit, `offset` being the index of the
extensions-length field, although the block ends at `offset + 2 +
extensions_len`. On the complete 68-octet `test.io` record that declares a
record length of 61 the limit is 66, the extensions-length field is at 50 and
says 16, so the block ends at 68, two octets past the limit; the header tests
pass all the same and `get_ssl_hostname` returns `test.io`. Declared one octet
short (62, limit 67) the record is accepted too. -/
theorem extension_block_past_limit :
    (sk_buff.of_bytes hello_short_record (fun _ => 0)).data_len = 68 ∧
    ssl_header_len (sk_buff.of_bytes hello_short_record (fun _ => 0)) = 66 ∧
    extensions_offset (sk_buff.of_bytes hello_short_record (fun _ => 0)) = 50 ∧
    ntohs_at (sk_buff.of_bytes hello_short_record (fun _ => 0)) 50 = 16 ∧
    ¬ (50 + 2 + 16 ≤ ssl_header_len (sk_buff.of_bytes hello_short_record (fun _ => 0))) ∧
    header_checks (sk_buff.of_bytes hello_short_record (fun _ => 0)) ∧
    get_ssl_hostname (sk_buff.of_bytes hello_short_record (fun _ => 0))
      = some (.ok (ascii "test.io" ++ [0])) ∧
    ssl_mt glob_match (sk_buff.of_bytes hello_short_record (fun _ => 0)) ⟨0, ascii "test.*"⟩
      = some true ∧
    ssl_header_len (sk_buff.of_bytes hello_short_record_by_one (fun _ => 0)) = 67 ∧
    get_ssl_hostname (sk_buff.of_bytes hello_short_record_by_one (fun _ => 0))
      = some (.ok (ascii "test.io" ++ [0])) := by
  refine ⟨?_, ?_, ?_, ?_, ?_, ?_, ?_, ?_, ?_, ?_⟩ <;> decide

/-- C14: the extension scan terminates for every `extensions_len` that a
`u_int16_t` can hold. An iteration that does not return moves the cursor by 4
plus the entry's length, without wrapping the 32-bit cursor; so from cursor 2
the body is entered at most `ceil ((E - 2) / 4)` times, never when `E <= 2`;
a budget of that many iterations is enough for the loop to return, and a
larger budget returns the same. `get_ssl_hostname` returns on every buffer. -/
theorem extension_scan_terminates (skb : sk_buff) (offset E : Nat) (hE : E < 65536) :
    (∀ eo, eo < E →
      u32 (u32 (u32 (eo + 2) + 2) + ntohs_at skb (u32 (offset + u32 (eo + 2))))
        = eo + 4 + ntohs_at skb (u32 (offset + u32 (eo + 2)))) ∧
    (∀ fuel, scan_extensions_iterations skb offset E fuel 2 ≤ (E - 2 + 3) / 4) ∧
    (E ≤ 2 → ∀ fuel, scan_extensions_iterations skb offset E fuel 2 = 0) ∧
    (∃ r, scan_extensions skb offset E ((E - 2 + 3) / 4) 2 = some r ∧
      ∀ fuel, (E - 2 + 3) / 4 ≤ fuel → scan_extensions skb offset E fuel 2 = some r) ∧
    ∃ r, get_ssl_hostname skb = some r := by
  refine ⟨fun eo hlt => cursor_advance skb offset E eo hE hlt,
    fun fuel => scan_extensions_iterations_le skb offset E hE fuel 2, ?_, ?_,
    get_ssl_hostname_returns skb⟩
  · intro h2 fuel
    have := scan_extensions_iterations_le skb offset E hE fuel 2
    omega
  · obtain ⟨r, hr⟩ := scan_extensions_fuel skb offset E hE ((E - 2 + 3) / 4) 2 (by omega)
    exact ⟨r, hr, scan_extensions_fuel_le skb offset E _ 2 r hr⟩

/-- Witness of C14: the loop over the four extensions (40 octets) of
`hello_two_names`, which returns in its second iteration. -/
theorem extension_scan_terminates_witness :
    scan_extensions_iterations (sk_buff.of_bytes hello_two_names (fun _ => 0)) 50 40 40 2 = 2 ∧
    scan_extensions_iterations (sk_buff.of_bytes hello_two_names (fun _ => 0)) 50 40 40 2
      ≤ (40 - 2 + 3) / 4 ∧
    ∃ r, scan_extensions (sk_buff.of_bytes hello_two_names (fun _ => 0)) 50 40
      ((40 - 2 + 3) / 4) 2 = some r :=
  have h := extension_scan_terminates (sk_buff.of_bytes hello_two_names (fun _ => 0)) 50 40
    (by decide)
  ⟨by decide, h.2.1 40, h.2.2.2.1.imp (fun _ hr => hr.1)⟩

/-- C15: `ssl_mt_check` returns 0 if and only if the family is IPv4 or IPv6
and the `proto` field of the rule's entry, read for that family, is TCP; in
every other case, protocol 0 under IPv4 or IPv6 included, it returns
`-EINVAL`. -/
theorem ssl_mt_check_accepts_iff (par : xt_mtchk_param) :
    (ssl_mt_check par = 0 ↔
      (par.family = NFPROTO_IPV4 ∧ u16 par.ipt_ip_proto = IPPROTO_TCP) ∨
      (par.family = NFPROTO_IPV6 ∧ u16 par.ip6t_ip6_proto = IPPROTO_TCP)) ∧
    (ssl_mt_check par ≠ 0 → ssl_mt_check par = -(EINVAL : Int)) ∧
    ssl_mt_check ⟨NFPROTO_IPV4, 0, IPPROTO_TCP⟩ = -(EINVAL : Int) ∧
    ssl_mt_check ⟨NFPROTO_IPV6, IPPROTO_TCP, 0⟩ = -(EINVAL : Int) := by
  have hne : (NFPROTO_IPV6 : Nat) ≠ NFPROTO_IPV4 := by decide
  have hE : -(EINVAL : Int) ≠ 0 := by decide
  refine ⟨?_, ?_, by decide, by decide⟩
  · unfold ssl_mt_check
    by_cases h4 : par.family = NFPROTO_IPV4
    · have h6 : par.family ≠ NFPROTO_IPV6 := by rw [h4]; exact fun h => hne h.symm
      by_cases ht : u16 par.ipt_ip_proto = IPPROTO_TCP
      · simp [h4, ht]
      · simp [h4, ht, hE, hne.symm]
    · by_cases h6 : par.family = NFPROTO_IPV6
      · by_cases ht : u16 par.ip6t_ip6_proto = IPPROTO_TCP
        · simp [h6, ht, hne]
        · simp [h6, ht, hE, hne]
      · simp [h4, h6, hE]
  · intro _
    unfold ssl_mt_check
    split_ifs <;> first | rfl | contradiction | skip
    all_goals simp_all [ssl_mt_check]

/-- C16: with the glob semantics of section 4.6, the rule's string as the
pattern and the extracted host name as the subject, matching is anchored:
for the host `sub.example.com` `ssl_mt` (invert clear) returns false for
`example.com` and true for `*.example.com`; for the host `example.com` it
returns false for `*.example.com`; for the host `api.example.com` and
`*.example.com` with invert set it returns false. -/
theorem anchored_glob_examples :
    get_ssl_hostname (sk_buff.of_bytes (hello_for "sub.example.com") (fun _ => 0))
      = some (.ok (ascii "sub.example.com" ++ [0])) ∧
    ssl_mt glob_match (sk_buff.of_bytes (hello_for "sub.example.com") (fun _ => 0))
      ⟨0, ascii "example.com"⟩ = some false ∧
    ssl_mt glob_match (sk_buff.of_bytes (hello_for "sub.example.com") (fun _ => 0))
      ⟨0, ascii "*.example.com"⟩ = some true ∧
    get_ssl_hostname (sk_buff.of_bytes (hello_for "example.com") (fun _ => 0))
      = some (.ok (ascii "example.com" ++ [0])) ∧
    ssl_mt glob_match (sk_buff.of_bytes (hello_for "example.com") (fun _ => 0))
      ⟨0, ascii "*.example.com"⟩ = some false ∧
    get_ssl_hostname (sk_buff.of_bytes (hello_for "api.example.com") (fun _ => 0))
      = some (.ok (ascii "api.example.com" ++ [0])) ∧
    ssl_mt glob_match (sk_buff.of_bytes (hello_for "api.example.com") (fun _ => 0))
      ⟨XT_SSL_OP_HOST, ascii "*.example.com"⟩ = some false ∧
    ssl_mt glob_match (sk_buff.of_bytes (hello_for "api.example.com") (fun _ => 0))
      ⟨0, ascii "*.example.com"⟩ = some true := by
  refine ⟨?_, ?_, ?_, ?_, ?_, ?_, ?_, ?_⟩ <;> decide

/-- C17: for every two buffers of equal length that differ only in the octets
1-2 (record version) and 6-42 (handshake length, protocol version, random),
`get_ssl_hostname` returns the same outcome and `ssl_mt` the same Boolean for
every pattern and invert mask. -/
theorem unused_header_fields (skb skb' : sk_buff) (hdl : skb'.data_len = skb.data_len)
    (h : ∀ i, ¬ (i = 1 ∨ i = 2 ∨ (6 ≤ i ∧ i ≤ 42)) → byte skb' i = byte skb i) :
    get_ssl_hostname skb' = get_ssl_hostname skb ∧
    ∀ (glob : List Nat → List Nat → Bool) (info : xt_ssl_info),
      ssl_mt glob skb' info = ssl_mt glob skb info := by
  have hg : get_ssl_hostname skb' = get_ssl_hostname skb := by
    obtain ⟨ho, he, hiff⟩ := header_congr skb skb' hdl (fun i hi _ => h i (by omega))
    rw [get_ssl_hostname_eq skb', get_ssl_hostname_eq skb]
    by_cases hchk : header_checks skb
    · rw [if_pos hchk, if_pos (hiff.2 hchk), he, ho]
      have hge := extensions_offset_ge skb
      exact scan_extensions_congr_above skb skb' _ _ (extensions_offset_lt skb hchk)
        (ntohs_at_lt skb _) _ 2 (fun i hi => h i (by omega))
    · rw [if_neg hchk, if_neg (fun hc => hchk (hiff.1 hc))]
  refine ⟨hg, fun glob info => ?_⟩
  unfold ssl_mt
  rw [hg]

/-- Witness of C17: the `test.io` record and the record that differs from it
in the version, the handshake length, the protocol version and the random. -/
theorem unused_header_fields_witness :
    hello_test_io_other ≠ hello_test_io ∧
    get_ssl_hostname (sk_buff.of_bytes hello_test_io_other (fun _ => 0))
      = get_ssl_hostname (sk_buff.of_bytes hello_test_io (fun _ => 0)) ∧
    get_ssl_hostname (sk_buff.of_bytes hello_test_io_other (fun _ => 0))
      = some (.ok (ascii "test.io" ++ [0])) :=
  have h := unused_header_fields (sk_buff.of_bytes hello_test_io (fun _ => 0))
    (sk_buff.of_bytes hello_test_io_other (fun _ => 0)) (by decide)
    (of_bytes_agree hello_test_io hello_test_io_other (fun _ => 0)
      (fun i => ¬ (i = 1 ∨ i = 2 ∨ (6 ≤ i ∧ i ≤ 42))) (by decide) (by decide))
  ⟨by decide, h.1, h.1.trans (by decide)⟩

/-- C18: for every two buffers of equal length such that on the first the
scan stops at the server_name entry at index `p`, and that differ only in
that entry's length field (`p + 2`, `p + 3`), its server-name-list length
(`p + 4`, `p + 5`) and its name type (`p + 6`), the scan stops at the same
entry on the second and `get_ssl_hostname` returns the same host name. -/
theorem unused_server_name_fields (skb skb' : sk_buff) (p : Nat)
    (hdl : skb'.data_len = skb.data_len) (hp : server_name_index skb = some p)
    (h : ∀ i, (i < p + 2 ∨ p + 6 < i) → byte skb' i = byte skb i) :
    server_name_index skb' = some p ∧
    get_ssl_hostname skb' = get_ssl_hostname skb ∧
    get_ssl_hostname skb
      = some (.ok (strncpy skb (p + 9) (ntohs_at skb (p + 7)) ++ [0])) := by
  obtain ⟨hchk, hge, _, _⟩ := server_name_index_bounds skb p hp
  obtain ⟨ho, he, hiff⟩ := header_congr skb skb' hdl (fun i _ hi => h i (by omega))
  have hf := hp
  unfold server_name_index at hf
  rw [if_pos hchk] at hf
  obtain ⟨hs, hf'⟩ := scan_extensions_congr_window skb skb' _ _
    (extensions_offset_lt skb hchk) (ntohs_at_lt skb _) _ 2 p hf (fun i _ hw => h i hw)
  refine ⟨?_, ?_, (get_ssl_hostname_ok_iff skb _).2 ⟨p, hp, rfl⟩⟩
  · unfold server_name_index
    rw [if_pos (hiff.2 hchk), he, ho]
    exact hf'
  · rw [get_ssl_hostname_eq skb', get_ssl_hostname_eq skb, if_pos hchk, if_pos (hiff.2 hchk),
      he, ho]
    exact hs

/-- Witness of C18: the `test.io` record, whose server_name entry is at index
52, and the record with `0xffff` as the entry's length, `0` as the list length
and `0x7f` as the name type. -/
theorem unused_server_name_fields_witness :
    hello_test_io_odd ≠ hello_test_io ∧
    server_name_index (sk_buff.of_bytes hello_test_io_odd (fun _ => 0)) = some 52 ∧
    get_ssl_hostname (sk_buff.of_bytes hello_test_io_odd (fun _ => 0))
      = some (.ok (ascii "test.io" ++ [0])) :=
  have h := unused_server_name_fields (sk_buff.of_bytes hello_test_io (fun _ => 0))
    (sk_buff.of_bytes hello_test_io_odd (fun _ => 0)) 52 (by decide) (by decide)
    (of_bytes_agree hello_test_io hello_test_io_odd (fun _ => 0)
      (fun i => i < 52 + 2 ∨ 52 + 6 < i) (by decide) (by decide))
  ⟨by decide, h.1, h.2.1.trans (by decide)⟩

/-- C19: for every buffer shorter than 45 octets, whatever it holds and
whatever record length it declares, `get_ssl_hostname` fails with `EPROTO` and
`ssl_mt` returns false for every pattern and invert mask; and every successful
extraction implies a buffer of at least 45 octets, first octet `0x16`, octet 5
equal to `0x01` and a clamped limit greater than 4. -/
theorem short_buffer_rejected (skb : sk_buff) :
    (skb.data_len < 45 →
      get_ssl_hostname skb = some (.error EPROTO) ∧
      ∀ (glob : List Nat → List Nat → Bool) (info : xt_ssl_info),
        ssl_mt glob skb info = some false) ∧
    (∀ dest, get_ssl_hostname skb = some (.ok dest) →
      45 ≤ skb.data_len ∧ byte skb 0 = 0x16 ∧ byte skb 5 = 0x01 ∧ 4 < ssl_header_len skb) := by
  constructor
  · intro hlt
    have hg : get_ssl_hostname skb = some (.error EPROTO) := by
      rw [get_ssl_hostname_eq, if_neg]
      intro hc
      have := hc.2.2.2.1
      omega
    exact ⟨hg, fun glob info => ssl_mt_of_error glob skb EPROTO info hg⟩
  · intro dest h
    obtain ⟨p, hp, _⟩ := (get_ssl_hostname_ok_iff skb dest).1 h
    obtain ⟨hchk, _⟩ := server_name_index_bounds skb p hp
    exact ⟨hchk.2.2.2.1, hchk.1, hchk.2.2.1, hchk.2.1⟩

/-- Witness of C19: the first 44 octets of the `test.io` record, which declare
a record of 63 octets, and the whole record. -/
theorem short_buffer_rejected_witness :
    (sk_buff.of_bytes (hello_test_io.take 44) (fun _ => 0)).data_len = 44 ∧
    get_ssl_hostname (sk_buff.of_bytes (hello_test_io.take 44) (fun _ => 0))
      = some (.error EPROTO) ∧
    ssl_mt glob_match (sk_buff.of_bytes (hello_test_io.take 44) (fun _ => 0)) ⟨1, ascii "*"⟩
      = some false ∧
    45 ≤ (sk_buff.of_bytes hello_test_io (fun _ => 0)).data_len ∧
    4 < ssl_header_len (sk_buff.of_bytes hello_test_io (fun _ => 0)) :=
  have h := (short_buffer_rejected (sk_buff.of_bytes (hello_test_io.take 44) (fun _ => 0))).1
    (by decide)
  have h' := (short_buffer_rejected (sk_buff.of_bytes hello_test_io (fun _ => 0))).2
    (ascii "test.io" ++ [0]) (by decide)
  ⟨by decide, h.1, h.2 glob_match ⟨1, ascii "*"⟩, h'.1, h'.2.2.2⟩
end XtSsl
